import Mathlib

/-!
# Verification of `package_control.providers.channel_provider`

A shallow embedding of `ChannelProvider` (src/package_control/providers/
channel_provider.py) and proofs about its query API.

Modelling conventions:

* JSON values are modelled by `JVal`; Python dicts are ordered association
  lists (`JObj`), with `pythonInsert` (update-in-place-or-append, which is
  Python dict assignment), `removeKey` (Python `del`) and `lookupKey`
  (Python `d[k]` / `d.get(k)`).
* Fallible Python code is modelled in `Except PyErr`.  Errors whose exact
  Python class is irrelevant to the claims (iterating a non-list, using a
  non-string as a mapping key, calling `.get`/`.copy`/`.startswith` on a
  value of the wrong type) are modelled as a `PyErr` of the closest kind;
  all claimed behaviour only exercises inputs where the distinction plays
  no role.
* The in-place mutation that `get_packages`/`get_libraries` perform on the
  cached channel document (the shallow `package.copy()` shares the
  `releases` list and its release dicts with the cache) is made explicit:
  those functions return the updated channel document next to their result.
* External collaborators that live outside this module (`update_url`,
  `version_sort`, `urllib.parse.urljoin`) are abstract functions collected
  in a `Ctx`; `os.path` helpers (`dirname`, `join`, `normpath`) are
  implemented here following POSIX `posixpath` semantics, since the claims
  fix their concrete behaviour.
-/

set_option autoImplicit false

/-- A JSON value, as decoded by `json.loads`. -/
inductive JVal where
  | null : JVal
  | bool : Bool → JVal
  | num : Int → JVal
  | str : String → JVal
  | list : List JVal → JVal
  | obj : List (String × JVal) → JVal

/-- A decoded JSON object: a Python dict with string keys, in insertion
order. -/
abbrev JObj := List (String × JVal)

/-- Python `d[k]` / `d.get(k)`: the value at the first occurrence of `k`. -/
def lookupKey : JObj → String → Option JVal
  | [], _ => none
  | (k', v) :: t, k => if k' = k then some v else lookupKey t k

/-- Python `d[k] = v`: replace the value at an existing key in place,
otherwise append the binding at the end. -/
def pythonInsert : JObj → String → JVal → JObj
  | [], k, v => [(k, v)]
  | (k', v') :: t, k, v => if k' = k then (k, v) :: t else (k', v') :: pythonInsert t k v

/-- Python `del d[k]` once the key is known present: drop the first
binding of `k`. -/
def removeKey : JObj → String → JObj
  | [], _ => []
  | (k', v') :: t, k => if k' = k then t else (k', v') :: removeKey t k

/-- The keys of an object, in order. -/
def keys (o : JObj) : List String := o.map Prod.fst

/-- Python truthiness of a JSON value. -/
def truthy : JVal → Bool
  | .null => false
  | .bool b => b
  | .num n => n != 0
  | .str s => s ≠ ""
  | .list xs => !xs.isEmpty
  | .obj fs => !fs.isEmpty

/-- Python truthiness of `d.get(k)` (where `None` is falsy). -/
def truthyOpt : Option JVal → Bool
  | none => false
  | some v => truthy v

/-- `None` becomes JSON `null`, anything else is itself. -/
def jvalOfOpt : Option JVal → JVal
  | none => .null
  | some v => v

/-- The errors the embedded code can raise. -/
inductive PyErr where
  | keyError : String → PyErr
  | attributeError : String → PyErr
  | typeError : String → PyErr
  | invalidChannelFile : String → PyErr
  deriving DecidableEq

/-- The external collaborators of the channel provider (spec §6): the
URL-rewrite utility `update_url`, the semantic-version sort
`version_sort` (platform key and `reverse=True` are fixed at the call
sites, so it is a plain list transformer here), and
`urllib.parse.urljoin`. -/
structure Ctx where
  update_url : String → String
  version_sort : List JVal → List JVal
  urljoin : String → String → String

/-! ## String utilities (`re.match`, `str.startswith`, `posixpath`) -/

/-- `s.startswith(p)`. -/
def strStarts (s p : String) : Bool := p.toList.isPrefixOf s.toList

/-- ASCII lower-casing of one character (what `re.I` needs for `https?`). -/
def asciiLower (c : Char) : Char :=
  if 'A' ≤ c ∧ c ≤ 'Z' then Char.ofNat (c.toNat + 32) else c

/-- `re.match(r'(https?:)//', url, re.I)`: `some g` returns capture group 1
(the scheme in its original case), `none` means no match. -/
def schemeMatch (url : String) : Option String :=
  let l := url.toList.map asciiLower
  if ("https://".toList).isPrefixOf l then some (String.mk (url.toList.take 6))
  else if ("http://".toList).isPrefixOf l then some (String.mk (url.toList.take 5))
  else none

/-- `path.split('/')` on the character list, accumulator-style. -/
def splitSlashAux : List Char → List Char → List String
  | [], acc => [String.mk acc.reverse]
  | c :: t, acc =>
      if c = '/' then String.mk acc.reverse :: splitSlashAux t []
      else splitSlashAux t (c :: acc)

/-- `'/'.join(comps)`. -/
def joinSlash : List String → String
  | [] => ""
  | [x] => x
  | x :: t => x ++ "/" ++ joinSlash t

/-- Does the component list end in `'..'`? (`new_comps[-1] == '..'`). -/
def lastDotDot (acc : List String) : Bool :=
  match acc.getLast? with
  | some x => x = ".."
  | none => false

/-- One step of `posixpath.normpath`'s component loop. -/
def normpathStep (initialSlashes : Nat) (acc : List String) (comp : String) : List String :=
  if comp = "" ∨ comp = "." then acc
  else if comp ≠ ".." ∨ (initialSlashes = 0 ∧ acc = []) ∨ lastDotDot acc then acc ++ [comp]
  else if acc = [] then acc
  else acc.dropLast

/-- `posixpath.normpath`. -/
def normpath (path : String) : String :=
  if path = "" then "."
  else
    let initialSlashes : Nat :=
      if strStarts path "//" ∧ ¬ strStarts path "///" then 2
      else if strStarts path "/" then 1
      else 0
    let comps := splitSlashAux path.toList []
    let newComps := comps.foldl (normpathStep initialSlashes) []
    let out := String.mk (List.replicate initialSlashes '/') ++ joinSlash newComps
    if out = "" then "." else out

/-- Does the string end in `'/'`? -/
def lastIsSlash (s : String) : Bool :=
  match s.toList.getLast? with
  | some c => c = '/'
  | none => false

/-- `posixpath.join(a, b)` for one extra component. -/
def pathJoin (a b : String) : String :=
  if strStarts b "/" then b
  else if a = "" ∨ lastIsSlash a then a ++ b
  else a ++ "/" ++ b

/-- The prefix of the character list up to and including the last `'/'`
(`p[:i]` with `i = p.rfind('/') + 1`), if any slash occurs. -/
def dirnameAux : List Char → Option (List Char)
  | [] => none
  | c :: t =>
      match dirnameAux t with
      | some r => some (c :: r)
      | none => if c = '/' then some [c] else none

/-- Strip trailing slashes (`head.rstrip('/')`). -/
def dropTrailingSlashes (cs : List Char) : List Char :=
  (cs.reverse.dropWhile (fun c => c = '/')).reverse

/-- `posixpath.dirname`. -/
def dirname (p : String) : String :=
  match dirnameAux p.toList with
  | none => ""
  | some head =>
      if head.isEmpty ∨ head.all (fun c => c = '/') then String.mk head
      else String.mk (dropTrailingSlashes head)

/-! ## The embedded source: `ChannelProvider`

Each definition below translates the correspondingly named piece of
`src/package_control/providers/channel_provider.py`.  The schema version
has already been parsed; only its `major` component drives behaviour, so
it is passed as a `Nat`. -/

/-- The provider instance state relevant to the claims.  Its Python
`__slots__` are `['channel_info', 'channel_url', 'schema_version',
'settings']`; only `channel_url` matters for attribute access here. -/
structure ChannelProvider where
  channel_url : String

/-- Python attribute access on a `ChannelProvider` instance, restricted to
string-valued attributes.  `__slots__` contains `channel_info`,
`channel_url`, `schema_version` and `settings` and nothing else, so any
other name — in particular `url` — raises `AttributeError`. -/
def providerGetattr (p : ChannelProvider) (name : String) : Except PyErr String :=
  if name = "channel_url" then .ok p.channel_url
  else .error (.attributeError name)

/-- `InvalidChannelFileException.__init__`: the message interpolates
`channel.url`, so building the exception first performs that attribute
access (lines 16–19 of the source). -/
def invalidChannelFileException (p : ChannelProvider) (reason : String) : Except PyErr PyErr :=
  match providerGetattr p "url" with
  | .ok u =>
      .ok (.invalidChannelFile
        ("Channel " ++ u ++ " does not appear to be a valid channel file because " ++ reason))
  | .error e => .error e

/-- `raise InvalidChannelFileException(self, reason)`. -/
def raiseInvalidChannelFile {α : Type} (p : ChannelProvider) (reason : String) : Except PyErr α :=
  match invalidChannelFileException p reason with
  | .ok e => .error e
  | .error e => .error e

/-- The cache key holding per-repository package lists
(`'packages_cache' if schema_version.major >= 2 else 'packages'`). -/
def packagesKey (major : Nat) : String :=
  if 2 ≤ major then "packages_cache" else "packages"

/-- The cache key holding per-repository library lists
(`'libraries_cache' if schema_version.major >= 4 else 'dependencies_cache'`). -/
def librariesKey (major : Nat) : String :=
  if 4 ≤ major then "libraries_cache" else "dependencies_cache"

/-- The tail of `ChannelProvider.fetch` (lines 126–137): after the JSON is
decoded and the schema version parsed, rewrite every repository-URL key of
the *package* cache through `update_url` and store the document.  Network
and file I/O, JSON decoding and schema parsing happen before this point
and are not claimed; the document passed in is the decoded JSON root. -/
def fetch (ctx : Ctx) (major : Nat) (channel_info : JObj) : Except PyErr JObj :=
  match lookupKey channel_info (packagesKey major) with
  | none => .ok channel_info
  | some (.obj original_cache) =>
      .ok (pythonInsert channel_info (packagesKey major)
        (JVal.obj (original_cache.foldl
          (fun new_cache kv => pythonInsert new_cache (ctx.update_url kv.1) kv.2) [])))
  | some _ => .error (.typeError "packages cache is not a mapping")

/-! ### `get_renamed_packages` -/

/-- `output[previous_name] = package['name']` for one entry of the
(normalised) `previous_names` list.  Python evaluates the right-hand side
first, so a missing `name` key raises before the key is hashed; a
non-string key is outside the JSON object model and surfaces as an
error. -/
def prevNameStep (pkg : JObj) (out : JObj) (pn : JVal) : Except PyErr JObj :=
  match lookupKey pkg "name" with
  | none => .error (.keyError "name")
  | some v =>
      match pn with
      | .str s => .ok (pythonInsert out s v)
      | _ => .error (.typeError "previous_names entry is not a string")

/-- The inner `for previous_name in previous_names` loop. -/
def prevNamesLoop (pkg : JObj) : JObj → List JVal → Except PyErr JObj
  | out, [] => .ok out
  | out, pn :: t =>
      match prevNameStep pkg out pn with
      | .ok out' => prevNamesLoop pkg out' t
      | .error e => .error e

/-- One package of `get_renamed_packages`: read `previous_names`
(defaulting to `[]`), wrap a non-list value into a singleton list, then
record every entry. -/
def renamedPkgStep (out : JObj) (package : JVal) : Except PyErr JObj :=
  match package with
  | .obj pkg =>
      let pns : List JVal :=
        match (lookupKey pkg "previous_names").getD (JVal.list []) with
        | .list l => l
        | v => [v]
      prevNamesLoop pkg out pns
  | _ => .error (.attributeError "get")

/-- The `for package in channel_info['packages_cache'][repo]` loop. -/
def renamedPkgsLoop : JObj → List JVal → Except PyErr JObj
  | out, [] => .ok out
  | out, p :: t =>
      match renamedPkgStep out p with
      | .ok out' => renamedPkgsLoop out' t
      | .error e => .error e

/-- The `for repo in channel_info['packages_cache']` loop: dict iteration
yields keys; the value is then looked up again. -/
def renamedRepoLoop (cache : JObj) : JObj → List String → Except PyErr JObj
  | out, [] => .ok out
  | out, k :: t =>
      match lookupKey cache k with
      | some (.list pkgs) =>
          match renamedPkgsLoop out pkgs with
          | .ok out' => renamedRepoLoop cache out' t
          | .error e => .error e
      | some _ => .error (.typeError "repository package list is not a list")
      | none => .error (.keyError k)

/-- `ChannelProvider.get_renamed_packages` (lines 156–180), after `fetch`
has populated the document. -/
def get_renamed_packages (major : Nat) (channel_info : JObj) : Except PyErr JVal :=
  if 2 ≤ major then
    match lookupKey channel_info "packages_cache" with
    | none => .ok (JVal.obj [])
    | some (.obj cache) =>
        match renamedRepoLoop cache [] (keys cache) with
        | .ok out => .ok (JVal.obj out)
        | .error e => .error e
    | some _ => .error (.typeError "packages_cache is not a mapping")
  else
    .ok ((lookupKey channel_info "renamed_packages").getD (JVal.obj []))

/-! ### `get_repositories` / `get_sources` -/

/-- The body of the `for repository in channel_info['repositories']` loop
(lines 209–224): protocol-relative entries get the channel's scheme (or
`https:`), root-absolute entries are skipped, `./`/`../` entries are
resolved against the channel URL (HTTP) or the channel file's directory
(filesystem), everything else passes through; each surviving entry goes
through `update_url` as it is appended. -/
def reposLoop (ctx : Ctx) (channel_url : String) (scheme_match : Option String)
    (relative_base : String) : List String → List JVal → Except PyErr (List String)
  | out, [] => .ok out
  | out, r :: t =>
      match r with
      | .str repository =>
          if strStarts repository "//" then
            let rep :=
              (match scheme_match with
               | some scheme => scheme
               | none => "https:") ++ repository
            reposLoop ctx channel_url scheme_match relative_base
              (out ++ [ctx.update_url rep]) t
          else if strStarts repository "/" then
            reposLoop ctx channel_url scheme_match relative_base out t
          else if strStarts repository "./" ∨ strStarts repository "../" then
            let rep :=
              if (schemeMatch channel_url).isSome then ctx.urljoin channel_url repository
              else normpath (pathJoin relative_base repository)
            reposLoop ctx channel_url scheme_match relative_base
              (out ++ [ctx.update_url rep]) t
          else
            reposLoop ctx channel_url scheme_match relative_base
              (out ++ [ctx.update_url repository]) t
      | _ => .error (.attributeError "startswith")

/-- `ChannelProvider.get_repositories` (lines 182–226), after `fetch`. -/
def get_repositories (ctx : Ctx) (p : ChannelProvider) (channel_info : JObj) :
    Except PyErr (List String) :=
  match lookupKey channel_info "repositories" with
  | none => raiseInvalidChannelFile p "the \"repositories\" JSON key is missing."
  | some (.list repos) =>
      reposLoop ctx p.channel_url (schemeMatch p.channel_url) (dirname p.channel_url) [] repos
  | some _ => .error (.typeError "repositories is not a list")

/-- `ChannelProvider.get_sources`: an alias for `get_repositories`. -/
def get_sources (ctx : Ctx) (p : ChannelProvider) (channel_info : JObj) :
    Except PyErr (List String) :=
  get_repositories ctx p channel_info

/-! ### `get_packages` -/

/-- Modelled from the spec: the external platforms→releases shim
(`schema_compat.platforms_to_releases`, a module of this repository that
is not under src/).  Per spec §4.2/§6 it "expands the single
package-level platform/version/url triple into the canonical
multi-release shape": one canonical release per entry of the package's
`platforms` list, carrying the package-level version, url and
last-modified date. -/
def platforms_to_releases (pkg : JObj) : List JVal :=
  let platforms : List JVal :=
    match lookupKey pkg "platforms" with
    | some (.list l) => l
    | _ => []
  platforms.map (fun p =>
    JVal.obj
      [("sublime_text", (lookupKey pkg "sublime_text").getD (JVal.str "*")),
       ("platforms", JVal.list [p]),
       ("version", (lookupKey pkg "version").getD JVal.null),
       ("url", (lookupKey pkg "url").getD JVal.null),
       ("date", (lookupKey pkg "last_modified").getD JVal.null)])

/-- Lines 306–309: for schema major < 4, rename a release's
`dependencies` key to `libraries` (`release['libraries'] =
release['dependencies']; del release['dependencies']`). -/
def renameRelease (major : Nat) (release : JObj) : JObj :=
  if major < 4 then
    match lookupKey release "dependencies" with
    | some v => removeKey (pythonInsert release "libraries" v) "dependencies"
    | none => release
  else release

/-- `renameRelease` lifted to a JSON value (non-dicts never reach it on
the success path). -/
def renameR (major : Nat) : JVal → JVal
  | .obj r => .obj (renameRelease major r)
  | v => v

/-- Python's `<` on strings: lexicographic comparison by code point,
written structurally so it evaluates by kernel reduction. -/
def lexLt : List Char → List Char → Bool
  | [], [] => false
  | [], _ :: _ => true
  | _ :: _, [] => false
  | a :: as, b :: bs =>
      if a.toNat < b.toNat then true
      else if b.toNat < a.toNat then false
      else lexLt as bs

def strLt (a b : String) : Bool := lexLt a.toList b.toList

/-- Lines 302–304: `date = release.get('date'); if not last_modified or
(date and date > last_modified): last_modified = date`.  Python's `>` is
modelled for the value shapes it accepts. -/
def pyGT : JVal → JVal → Except PyErr Bool
  | .str a, .str b => .ok (strLt b a)
  | .num a, .num b => .ok (decide (b < a))
  | _, _ => .error (.typeError "unorderable types")

/-- One release's contribution to `last_modified`. -/
def lmStep (lm : Option JVal) (date : Option JVal) : Except PyErr (Option JVal) :=
  if !truthyOpt lm then .ok date
  else
    match date, lm with
    | some d, some l =>
        if truthy d then
          match pyGT d l with
          | .ok true => .ok (some d)
          | .ok false => .ok (some l)
          | .error e => .error e
        else .ok (some l)
    | none, _ => .ok lm
    | some _, none => .ok date

/-- The `last_modified` accumulation over a list of `release.get('date')`
values. -/
def lmLoop : Option JVal → List (Option JVal) → Except PyErr (Option JVal)
  | lm, [] => .ok lm
  | lm, d :: t =>
      match lmStep lm d with
      | .ok lm' => lmLoop lm' t
      | .error e => .error e

/-- The `date` value each release contributes (`release.get('date')`). -/
def relDates (rels : List JVal) : List (Option JVal) :=
  rels.map (fun r =>
    match r with
    | .obj ro => lookupKey ro "date"
    | _ => none)

/-- One iteration of the `for release in copy.get('releases', [])` loop
(lines 301–309): update `last_modified` from `release.get('date')`, then
rename `dependencies` to `libraries` in the (shared, cached) release
dict.  A non-dict release fails at `release.get`. -/
def releaseStep (major : Nat) (acc : Option JVal × List JVal) (release : JVal) :
    Except PyErr (Option JVal × List JVal) :=
  match release with
  | .obj r =>
      match lmStep acc.1 (lookupKey r "date") with
      | .ok lm => .ok (lm, acc.2 ++ [JVal.obj (renameRelease major r)])
      | .error e => .error e
  | _ => .error (.attributeError "get")

/-- The release loop itself. -/
def releasesLoop (major : Nat) :
    Option JVal × List JVal → List JVal → Except PyErr (Option JVal × List JVal)
  | acc, [] => .ok acc
  | acc, r :: t =>
      match releaseStep major acc r with
      | .ok acc' => releasesLoop major acc' t
      | .error e => .error e

/-- The defaults table of `get_packages` (lines 313–320), in dict
insertion order. -/
def defaultsList : List (String × JVal) :=
  [("buy", .null), ("issues", .null), ("labels", .list []),
   ("previous_names", .list []), ("readme", .null), ("donate", .null)]

/-- `for field in defaults: if field not in copy: copy[field] = defaults[field]`. -/
def fillLoop : JObj → List (String × JVal) → JObj
  | copy, [] => copy
  | copy, (k, v) :: t =>
      fillLoop (if (lookupKey copy k).isSome then copy else pythonInsert copy k v) t

def fillDefaults (copy : JObj) : JObj := fillLoop copy defaultsList

/-- Lines 313–327: fill the defaults, sort `copy['releases']` with
`version_sort` (a `KeyError` if the record never obtained a `releases`
key), and read `copy['name']` for the output key. -/
def finishPackage (ctx : Ctx) (copy : JObj) : Except PyErr (String × JVal) :=
  let copy := fillDefaults copy
  match lookupKey copy "releases" with
  | some (.list rels) =>
      let copy := pythonInsert copy "releases" (JVal.list (ctx.version_sort rels))
      match lookupKey copy "name" with
      | some (.str s) => .ok (s, JVal.obj copy)
      | some _ => .error (.typeError "package name is not a string")
      | none => .error (.keyError "name")
  | some _ => .error (.typeError "releases is not a list")
  | none => .error (.keyError "releases")

/-- Lines 289–327, one package record: `copy = package.copy()` is a
shallow copy, so for major ≥ 2 the release dicts the loop mutates are the
cached ones — the third component of the result is the package record as
it remains in the cached channel document. -/
def processPackage (ctx : Ctx) (major : Nat) (package : JVal) :
    Except PyErr (String × JVal × JVal) :=
  match package with
  | .obj pkg =>
      if major < 2 then
        -- copy['releases'] = platforms_to_releases(copy, debug); del copy['platforms']
        let copy1 := pythonInsert pkg "releases" (JVal.list (platforms_to_releases pkg))
        if (lookupKey copy1 "platforms").isSome then
          match finishPackage ctx (removeKey copy1 "platforms") with
          | .ok (nm, rec) => .ok (nm, rec, JVal.obj pkg)
          | .error e => .error e
        else .error (.keyError "platforms")
      else
        match (lookupKey pkg "releases").getD (JVal.list []) with
        | .list rels =>
            match releasesLoop major (none, []) rels with
            | .ok (lm, renamed) =>
                -- the release dicts were mutated in place; if the copy got its
                -- `releases` list from the package, so did the cached record
                let mutated :=
                  if (lookupKey pkg "releases").isSome then
                    pythonInsert pkg "releases" (JVal.list renamed)
                  else pkg
                let copy2 := pythonInsert mutated "last_modified" (jvalOfOpt lm)
                match finishPackage ctx copy2 with
                | .ok (nm, rec) => .ok (nm, rec, JVal.obj mutated)
                | .error e => .error e
            | .error e => .error e
        | _ => .error (.typeError "releases is not a list")
  | _ => .error (.attributeError "copy")

/-- The `for package in channel_info.get(packages_key, {}).get(repo_url, [])`
loop, accumulating the output mapping and the cache-side package list. -/
def packagesLoop (ctx : Ctx) (major : Nat) :
    JObj × List JVal → List JVal → Except PyErr (JObj × List JVal)
  | acc, [] => .ok acc
  | acc, p :: t =>
      match processPackage ctx major p with
      | .ok (nm, rec, cached) =>
          packagesLoop ctx major (pythonInsert acc.1 nm rec, acc.2 ++ [cached]) t
      | .error e => .error e

/-- `ChannelProvider.get_packages` (lines 239–329), after `fetch`: returns
the output mapping together with the channel document as it stands after
the call (the release dicts of the queried repository's cached packages
are renamed in place). -/
def get_packages (ctx : Ctx) (major : Nat) (channel_info : JObj) (repo_url : String) :
    Except PyErr (JObj × JObj) :=
  let repo := ctx.update_url repo_url
  match lookupKey channel_info (packagesKey major) with
  | none => .ok ([], channel_info)
  | some (.obj cache) =>
      match lookupKey cache repo with
      | none => .ok ([], channel_info)
      | some (.list pkgs) =>
          match packagesLoop ctx major ([], []) pkgs with
          | .ok (out, newPkgs) =>
              .ok (out,
                pythonInsert channel_info (packagesKey major)
                  (JVal.obj (pythonInsert cache repo (JVal.list newPkgs))))
          | .error e => .error e
      | some _ => .error (.typeError "repository package list is not a list")
  | some _ => .error (.attributeError "get")

/-! ### `get_libraries` -/

/-- One iteration of the `for library in ...` loop of `get_libraries`
(lines 375–377): sort the library's releases in place (`library` is the
cached dict itself — no copy) and index it by name. -/
def libraryStep (ctx : Ctx) (acc : JObj × List JVal) (library : JVal) :
    Except PyErr (JObj × List JVal) :=
  match library with
  | .obj lib =>
      match lookupKey lib "releases" with
      | some (.list rels) =>
          let lib2 := pythonInsert lib "releases" (JVal.list (ctx.version_sort rels))
          match lookupKey lib2 "name" with
          | some (.str s) =>
              .ok (pythonInsert acc.1 s (JVal.obj lib2), acc.2 ++ [JVal.obj lib2])
          | some _ => .error (.typeError "library name is not a string")
          | none => .error (.keyError "name")
      | some _ => .error (.typeError "releases is not a list")
      | none => .error (.keyError "releases")
  | _ => .error (.typeError "library record is not a mapping")

def librariesLoop (ctx : Ctx) :
    JObj × List JVal → List JVal → Except PyErr (JObj × List JVal)
  | acc, [] => .ok acc
  | acc, l :: t =>
      match libraryStep ctx acc l with
      | .ok acc' => librariesLoop ctx acc' t
      | .error e => .error e

/-- `ChannelProvider.get_libraries` (lines 331–379), after `fetch`.  Note
that `fetch` never rewrites the keys of this cache; only the caller's
`repo_url` goes through `update_url` here. -/
def get_libraries (ctx : Ctx) (major : Nat) (channel_info : JObj) (repo_url : String) :
    Except PyErr (JObj × JObj) :=
  let repo := ctx.update_url repo_url
  match lookupKey channel_info (librariesKey major) with
  | none => .ok ([], channel_info)
  | some (.obj cache) =>
      match lookupKey cache repo with
      | none => .ok ([], channel_info)
      | some (.list libs) =>
          match librariesLoop ctx ([], []) libs with
          | .ok (out, newLibs) =>
              .ok (out,
                pythonInsert channel_info (librariesKey major)
                  (JVal.obj (pythonInsert cache repo (JVal.list newLibs))))
          | .error e => .error e
      | some _ => .error (.typeError "repository library list is not a list")
  | some _ => .error (.attributeError "get")

/-! ## Dictionary lemmas -/

theorem lookupKey_cons_self (k : String) (v : JVal) (t : JObj) :
    lookupKey ((k, v) :: t) k = some v := by
  simp [lookupKey]

theorem lookupKey_cons_ne (k k' : String) (v : JVal) (t : JObj) (h : k' ≠ k) :
    lookupKey ((k', v) :: t) k = lookupKey t k := by
  simp [lookupKey, h]

theorem pythonInsert_cons_self (k : String) (v v' : JVal) (t : JObj) :
    pythonInsert ((k, v') :: t) k v = (k, v) :: t := by
  simp [pythonInsert]

theorem pythonInsert_cons_ne (k k' : String) (v v' : JVal) (t : JObj) (h : k' ≠ k) :
    pythonInsert ((k', v') :: t) k v = (k', v') :: pythonInsert t k v := by
  simp [pythonInsert, h]

theorem removeKey_cons_self (k : String) (v : JVal) (t : JObj) :
    removeKey ((k, v) :: t) k = t := by
  simp [removeKey]

theorem removeKey_cons_ne (k k' : String) (v : JVal) (t : JObj) (h : k' ≠ k) :
    removeKey ((k', v) :: t) k = (k', v) :: removeKey t k := by
  simp [removeKey, h]

theorem lookup_pythonInsert_self (o : JObj) (k : String) (v : JVal) :
    lookupKey (pythonInsert o k v) k = some v := by
  induction o with
  | nil => simp [pythonInsert, lookupKey]
  | cons kv t ih =>
      obtain ⟨k', v'⟩ := kv
      by_cases h : k' = k
      · subst h
        rw [pythonInsert_cons_self, lookupKey_cons_self]
      · rw [pythonInsert_cons_ne _ _ _ _ _ h, lookupKey_cons_ne _ _ _ _ h]
        exact ih

theorem lookup_pythonInsert_ne (o : JObj) (k k' : String) (v : JVal) (h : k ≠ k') :
    lookupKey (pythonInsert o k v) k' = lookupKey o k' := by
  induction o with
  | nil =>
      have hne : k ≠ k' := h
      simp [pythonInsert, lookupKey, hne]
  | cons kv t ih =>
      obtain ⟨k'', v''⟩ := kv
      by_cases h2 : k'' = k
      · subst h2
        rw [pythonInsert_cons_self, lookupKey_cons_ne _ _ _ _ h, lookupKey_cons_ne _ _ _ _ h]
      · rw [pythonInsert_cons_ne _ _ _ _ _ h2]
        by_cases h3 : k'' = k'
        · subst h3
          rw [lookupKey_cons_self, lookupKey_cons_self]
        · rw [lookupKey_cons_ne _ _ _ _ h3, lookupKey_cons_ne _ _ _ _ h3]
          exact ih

theorem pythonInsert_pythonInsert_same (o : JObj) (k : String) (v w : JVal) :
    pythonInsert (pythonInsert o k v) k w = pythonInsert o k w := by
  induction o with
  | nil => simp [pythonInsert]
  | cons kv t ih =>
      obtain ⟨k', v'⟩ := kv
      by_cases h : k' = k
      · subst h
        rw [pythonInsert_cons_self, pythonInsert_cons_self, pythonInsert_cons_self]
      · rw [pythonInsert_cons_ne _ _ _ _ _ h, pythonInsert_cons_ne _ _ _ _ _ h,
            pythonInsert_cons_ne _ _ _ _ _ h, ih]

theorem lookup_removeKey_ne (o : JObj) (k k' : String) (h : k ≠ k') :
    lookupKey (removeKey o k) k' = lookupKey o k' := by
  induction o with
  | nil => simp [removeKey]
  | cons kv t ih =>
      obtain ⟨k'', v''⟩ := kv
      by_cases h2 : k'' = k
      · subst h2
        rw [removeKey_cons_self, lookupKey_cons_ne _ _ _ _ h]
      · rw [removeKey_cons_ne _ _ _ _ h2]
        by_cases h3 : k'' = k'
        · subst h3
          rw [lookupKey_cons_self, lookupKey_cons_self]
        · rw [lookupKey_cons_ne _ _ _ _ h3, lookupKey_cons_ne _ _ _ _ h3]
          exact ih

theorem lookup_not_mem_keys (o : JObj) (k : String) (h : k ∉ keys o) :
    lookupKey o k = none := by
  induction o with
  | nil => simp [lookupKey]
  | cons kv t ih =>
      obtain ⟨k', v'⟩ := kv
      simp only [keys, List.map_cons, List.mem_cons, not_or] at h
      have hne : k' ≠ k := fun hh => h.1 hh.symm
      rw [lookupKey_cons_ne _ _ _ _ hne]
      exact ih h.2

theorem lookup_removeKey_self (o : JObj) (k : String) (hnd : (keys o).Nodup) :
    lookupKey (removeKey o k) k = none := by
  induction o with
  | nil => simp [removeKey, lookupKey]
  | cons kv t ih =>
      obtain ⟨k', v'⟩ := kv
      simp only [keys, List.map_cons, List.nodup_cons] at hnd
      by_cases h : k' = k
      · subst h
        rw [removeKey_cons_self]
        exact lookup_not_mem_keys t k' hnd.1
      · rw [removeKey_cons_ne _ _ _ _ h, lookupKey_cons_ne _ _ _ _ h]
        exact ih hnd.2

theorem keys_pythonInsert_sub (o : JObj) (k k' : String) (v : JVal) :
    k' ∈ keys (pythonInsert o k v) → k' ∈ keys o ∨ k' = k := by
  induction o with
  | nil =>
      intro hm
      right
      simpa [pythonInsert, keys] using hm
  | cons kv t ih =>
      obtain ⟨k'', v''⟩ := kv
      intro hm
      by_cases h2 : k'' = k
      · subst h2
        rw [pythonInsert_cons_self] at hm
        simp only [keys, List.map_cons, List.mem_cons] at hm ⊢
        rcases hm with hm | hm
        · right; exact hm
        · left; right; exact hm
      · rw [pythonInsert_cons_ne _ _ _ _ _ h2] at hm
        simp only [keys, List.map_cons, List.mem_cons] at hm ⊢
        rcases hm with hm | hm
        · left; left; exact hm
        · rcases ih hm with h3 | h3
          · left; right; exact h3
          · right; exact h3

theorem nodup_keys_pythonInsert (o : JObj) (k : String) (v : JVal)
    (hnd : (keys o).Nodup) : (keys (pythonInsert o k v)).Nodup := by
  induction o with
  | nil => simp [pythonInsert, keys]
  | cons kv t ih =>
      obtain ⟨k', v'⟩ := kv
      simp only [keys, List.map_cons, List.nodup_cons] at hnd
      by_cases h : k' = k
      · subst h
        rw [pythonInsert_cons_self]
        simp only [keys, List.map_cons, List.nodup_cons]
        exact hnd
      · rw [pythonInsert_cons_ne _ _ _ _ _ h]
        simp only [keys, List.map_cons, List.nodup_cons]
        refine ⟨?_, ih hnd.2⟩
        intro hmem
        rcases keys_pythonInsert_sub t k k' v hmem with h2 | h2
        · exact hnd.1 h2
        · exact h h2

theorem mem_pythonInsert (o : JObj) (k : String) (v : JVal) (e : String × JVal) :
    e ∈ pythonInsert o k v → e ∈ o ∨ e = (k, v) := by
  induction o with
  | nil =>
      intro hm
      right
      simpa [pythonInsert] using hm
  | cons kv t ih =>
      obtain ⟨k'', v''⟩ := kv
      intro hm
      by_cases h2 : k'' = k
      · subst h2
        rw [pythonInsert_cons_self] at hm
        rcases List.mem_cons.mp hm with hm | hm
        · right; exact hm
        · left; exact List.mem_cons_of_mem _ hm
      · rw [pythonInsert_cons_ne _ _ _ _ _ h2] at hm
        rcases List.mem_cons.mp hm with hm | hm
        · left; exact hm ▸ List.mem_cons_self _ _
        · rcases ih hm with h3 | h3
          · left; exact List.mem_cons_of_mem _ h3
          · right; exact h3

theorem lookup_fillLoop_ne (ds : List (String × JVal)) (copy : JObj) (k : String)
    (h : ∀ kv ∈ ds, kv.1 ≠ k) :
    lookupKey (fillLoop copy ds) k = lookupKey copy k := by
  induction ds generalizing copy with
  | nil => simp [fillLoop]
  | cons kv t ih =>
      obtain ⟨k', v'⟩ := kv
      have hk' : k' ≠ k := h (k', v') (List.mem_cons_self _ _)
      have ht : ∀ kv ∈ t, kv.1 ≠ k := fun kv hkv => h kv (List.mem_cons_of_mem _ hkv)
      simp only [fillLoop]
      rw [ih _ ht]
      by_cases hc : (lookupKey copy k').isSome
      · simp only [if_pos hc]
      · simp only [if_neg hc]
        exact lookup_pythonInsert_ne _ _ _ _ hk'

/-- For any key outside the defaults table, `fillDefaults` does not change
its binding. -/
theorem lookup_fillDefaults_ne (copy : JObj) (k : String)
    (h : k ≠ "buy" ∧ k ≠ "issues" ∧ k ≠ "labels" ∧ k ≠ "previous_names" ∧
         k ≠ "readme" ∧ k ≠ "donate") :
    lookupKey (fillDefaults copy) k = lookupKey copy k := by
  apply lookup_fillLoop_ne
  intro kv hkv
  obtain ⟨h1, h2, h3, h4, h5, h6⟩ := h
  simp only [defaultsList, List.mem_cons, List.not_mem_nil, or_false] at hkv
  rcases hkv with rfl | rfl | rfl | rfl | rfl | rfl
  · exact fun hh => h1 hh.symm
  · exact fun hh => h2 hh.symm
  · exact fun hh => h3 hh.symm
  · exact fun hh => h4 hh.symm
  · exact fun hh => h5 hh.symm
  · exact fun hh => h6 hh.symm

/-! ## Concrete instances used by witnesses and counterexamples -/

/-- Identity collaborators: no URL is out of date, `version_sort` keeps
the given order (any sort does on the singleton lists used below). -/
def ctxId : Ctx := ⟨fun s => s, fun l => l, fun _ r => r⟩

/-- A rewrite utility that maps the historical URL `http://a` to the
current `https://b` and leaves everything else alone. -/
def ctxRw : Ctx := ⟨fun s => if s = "http://a" then "https://b" else s, fun l => l, fun _ r => r⟩

/-! ## Claim C8 -/

def c8doc : JObj := [("schema_version", JVal.str "3.0.0"), ("packages_cache", JVal.obj [])]

def c8provider : ChannelProvider := ⟨"https://example.com/channel.json"⟩

/-- Claim C8: the claim says a document lacking `repositories` makes
`get_repositories`/`get_sources` raise the invalid-channel-file error
whose message mentions "repositories".  The code instead crashes while
*building* that exception: `InvalidChannelFileException.__init__` reads
`channel.url`, but `ChannelProvider.__slots__` only defines
`channel_url`, so the attribute access raises `AttributeError: url`
before any validation error exists.  The error recurs on every call
(both functions are pure in the fetched document). -/
theorem c8_missing_repositories_attribute_error :
    get_repositories ctxId c8provider c8doc = .error (.attributeError "url")
    ∧ get_sources ctxId c8provider c8doc = .error (.attributeError "url") :=
  ⟨rfl, rfl⟩

/-! ## Claim C9 -/

/-- The queried repository URL is absent from the given cache of the
document: the cache key is missing entirely, or it maps to an object
without the URL. -/
def CacheMiss (doc : JObj) (key u : String) : Prop :=
  match lookupKey doc key with
  | none => True
  | some (JVal.obj c) => lookupKey c u = none
  | some _ => False

/-- Claim C9: for every valid fetched document and every repository URL
whose rewritten form is absent from the package cache (resp. library
cache), `get_packages` (resp. `get_libraries`) returns an empty mapping,
leaves the document untouched, and does not raise. -/
theorem c9_missing_repo_empty (ctx : Ctx) (major : Nat) (doc : JObj) (u : String)
    (hp : CacheMiss doc (packagesKey major) (ctx.update_url u))
    (hl : CacheMiss doc (librariesKey major) (ctx.update_url u)) :
    get_packages ctx major doc u = .ok ([], doc)
    ∧ get_libraries ctx major doc u = .ok ([], doc) := by
  constructor
  · unfold CacheMiss at hp
    cases hpc : lookupKey doc (packagesKey major) with
    | none => simp [get_packages, hpc]
    | some v =>
        rw [hpc] at hp
        cases v with
        | obj c =>
            simp only at hp
            simp [get_packages, hpc, hp]
        | null => exact hp.elim
        | bool b => exact hp.elim
        | num n => exact hp.elim
        | str s => exact hp.elim
        | list l => exact hp.elim
  · unfold CacheMiss at hl
    cases hlc : lookupKey doc (librariesKey major) with
    | none => simp [get_libraries, hlc]
    | some v =>
        rw [hlc] at hl
        cases v with
        | obj c =>
            simp only at hl
            simp [get_libraries, hlc, hl]
        | null => exact hl.elim
        | bool b => exact hl.elim
        | num n => exact hl.elim
        | str s => exact hl.elim
        | list l => exact hl.elim

def c9doc : JObj :=
  [("schema_version", JVal.str "3.0.0"),
   ("repositories", JVal.list [JVal.str "https://r1"]),
   ("packages_cache", JVal.obj [("https://r1", JVal.list [])])]

/-- Witness for C9 at a concrete document: `https://other` is in neither
cache (the library cache is absent altogether). -/
theorem c9_missing_repo_empty_witness :
    get_packages ctxId 3 c9doc "https://other" = .ok ([], c9doc)
    ∧ get_libraries ctxId 3 c9doc "https://other" = .ok ([], c9doc) :=
  c9_missing_repo_empty ctxId 3 c9doc "https://other" (by exact rfl) (by exact trivial)

/-! ## Claim C10 -/

/-- Claim C10: for schema major < 2, `get_packages` runs
`del copy['platforms']` unconditionally, so a package record without a
`platforms` key makes the per-record normalisation — and hence
`get_packages` on a document containing such a record — fail with an
unhandled `KeyError`, not a validation error. -/
theorem c10_platforms_key_error (ctx : Ctx) (major : Nat) (doc cache pkg : JObj)
    (u : String) (hmaj : major < 2)
    (hplat : lookupKey pkg "platforms" = none)
    (hcache : lookupKey doc "packages" = some (JVal.obj cache))
    (hrepo : lookupKey cache (ctx.update_url u) = some (JVal.list [JVal.obj pkg])) :
    processPackage ctx major (JVal.obj pkg) = .error (.keyError "platforms")
    ∧ get_packages ctx major doc u = .error (.keyError "platforms") := by
  have hkey : packagesKey major = "packages" := by
    unfold packagesKey
    rw [if_neg (by omega)]
  have hp1 : lookupKey (pythonInsert pkg "releases" (JVal.list (platforms_to_releases pkg)))
      "platforms" = none := by
    rw [lookup_pythonInsert_ne _ _ _ _ (by decide)]
    exact hplat
  have hproc : processPackage ctx major (JVal.obj pkg) = .error (.keyError "platforms") := by
    simp only [processPackage]
    rw [if_pos hmaj]
    simp [hp1]
  refine ⟨hproc, ?_⟩
  simp only [get_packages, hkey, hcache, hrepo, packagesLoop, hproc]

/-- Witness for C10: a schema-1 document whose single package record has
no `platforms` key. -/
theorem c10_platforms_key_error_witness :
    processPackage ctxId 1 (JVal.obj [("name", JVal.str "P")]) = .error (.keyError "platforms")
    ∧ get_packages ctxId 1
        [("schema_version", JVal.num 1),
         ("packages", JVal.obj [("https://r1", JVal.list [JVal.obj [("name", JVal.str "P")]])])]
        "https://r1" = .error (.keyError "platforms") :=
  c10_platforms_key_error ctxId 1 _ _ _ "https://r1" (by omega) rfl rfl rfl

/-! ## Claim C1 -/

def c1lib : JVal :=
  JVal.obj
    [("name", JVal.str "L"), ("load_order", JVal.str "01"),
     ("releases", JVal.list
       [JVal.obj
         [("version", JVal.str "1.0.0"), ("url", JVal.str "https://dl/l.zip"),
          ("sublime_text", JVal.str "*"), ("platforms", JVal.list [JVal.str "*"])]])]

/-- A schema-3 channel document whose library cache is stored under the
historical URL `http://a` (whose current, rewritten form is `https://b`). -/
def c1doc : JObj :=
  [("schema_version", JVal.str "3.0.0"),
   ("repositories", JVal.list [JVal.str "http://a"]),
   ("dependencies_cache", JVal.obj [("http://a", JVal.list [c1lib])])]

/-- Claim C1 counterexample: `fetch` does *not* rewrite the repository
URL keys of the library cache (it only rewrites the package cache), so
with a rewrite utility mapping `http://a` to `https://b` the fetched
document still stores the libraries under `http://a`, and
`get_libraries` called with the historical URL `http://a` rewrites the
query to `https://b`, misses the stored entry, and returns the empty
mapping instead of the stored library mapping. -/
theorem c1_library_cache_keys_not_rewritten :
    fetch ctxRw 3 c1doc = .ok c1doc
    ∧ ctxRw.update_url "http://a" = "https://b"
    ∧ lookupKey c1doc "dependencies_cache" = some (JVal.obj [("http://a", JVal.list [c1lib])])
    ∧ get_libraries ctxRw 3 c1doc "http://a" = .ok ([], c1doc) :=
  ⟨rfl, rfl, rfl, rfl⟩

/-- Claim C1 (amended): the caller-supplied repository URL is rewritten
at query time, so `get_packages`/`get_libraries` lookups depend on the
URL only through its rewritten form — two URLs with the same rewrite
image give the same result, and (for an idempotent rewrite) a historical
form and its current form give the same result.  The fetch-time key
normalisation, however, applies only to the *package* cache: `fetch`
leaves the `dependencies_cache`/`libraries_cache` entries untouched. -/
theorem c1_amended_lookup_stability (ctx : Ctx) (major : Nat) (raw fetched : JObj)
    (u v : String)
    (hfetch : fetch ctx major raw = .ok fetched)
    (hidem : ∀ s, ctx.update_url (ctx.update_url s) = ctx.update_url s)
    (huv : ctx.update_url u = ctx.update_url v) :
    get_libraries ctx major fetched u = get_libraries ctx major fetched v
    ∧ get_packages ctx major fetched u = get_packages ctx major fetched v
    ∧ get_packages ctx major fetched u = get_packages ctx major fetched (ctx.update_url u)
    ∧ lookupKey fetched "dependencies_cache" = lookupKey raw "dependencies_cache"
    ∧ lookupKey fetched "libraries_cache" = lookupKey raw "libraries_cache" := by
  have hlib : ∀ w w', ctx.update_url w = ctx.update_url w' →
      get_libraries ctx major fetched w = get_libraries ctx major fetched w' := by
    intro w w' h
    simp only [get_libraries, h]
  have hpkg : ∀ w w', ctx.update_url w = ctx.update_url w' →
      get_packages ctx major fetched w = get_packages ctx major fetched w' := by
    intro w w' h
    simp only [get_packages, h]
  have hkeyne : ∀ k, k = "dependencies_cache" ∨ k = "libraries_cache" →
      lookupKey fetched k = lookupKey raw k := by
    intro k hk
    have hne : packagesKey major ≠ k := by
      unfold packagesKey
      rcases hk with rfl | rfl
      · split <;> decide
      · split <;> decide
    unfold fetch at hfetch
    cases hc : lookupKey raw (packagesKey major) with
    | none =>
        rw [hc] at hfetch
        simp only at hfetch
        cases hfetch
        rfl
    | some w =>
        rw [hc] at hfetch
        cases w with
        | obj c =>
            simp only at hfetch
            cases hfetch
            exact lookup_pythonInsert_ne _ _ _ _ hne
        | null => exact absurd hfetch (by simp)
        | bool b => exact absurd hfetch (by simp)
        | num n => exact absurd hfetch (by simp)
        | str s => exact absurd hfetch (by simp)
        | list l => exact absurd hfetch (by simp)
  exact ⟨hlib u v huv, hpkg u v huv, hpkg u (ctx.update_url u) (hidem u).symm,
    hkeyne _ (Or.inl rfl), hkeyne _ (Or.inr rfl)⟩

/-- Witness for the amended C1: with the `http://a` to `https://b`
rewrite, querying the historical and the current form of the URL agree
(here both miss, since the cache key was never rewritten). -/
theorem c1_amended_lookup_stability_witness :
    get_libraries ctxRw 3 c1doc "http://a" = get_libraries ctxRw 3 c1doc "https://b" := by
  have hidem : ∀ s, ctxRw.update_url (ctxRw.update_url s) = ctxRw.update_url s := by
    intro s
    by_cases h : s = "http://a"
    · subst h
      rfl
    · show (if (if s = "http://a" then "https://b" else s) = "http://a" then "https://b"
        else if s = "http://a" then "https://b" else s) = if s = "http://a" then "https://b" else s
      rw [if_neg h, if_neg h]
  exact (c1_amended_lookup_stability ctxRw 3 c1doc c1doc "http://a" "https://b" rfl hidem rfl).1

/-! ## Claim C7 -/

theorem lookupKey_append (o1 o2 : JObj) (k : String) :
    lookupKey (o1 ++ o2) k =
      match lookupKey o1 k with
      | some v => some v
      | none => lookupKey o2 k := by
  induction o1 with
  | nil => simp [lookupKey]
  | cons kv t ih =>
      obtain ⟨k', v'⟩ := kv
      by_cases h : k' = k
      · subst h
        simp [lookupKey_cons_self, lookupKey]
      · rw [List.cons_append, lookupKey_cons_ne _ _ _ _ h, lookupKey_cons_ne _ _ _ _ h, ih]

/-- Wrapping a bare-string `previous_names` into a singleton list does
not change one package's contribution to `get_renamed_packages`. -/
theorem renamedPkgStep_prev_string_list (out : JObj) (p : JObj) (s : String) :
    renamedPkgStep out (JVal.obj (pythonInsert p "previous_names" (JVal.str s)))
    = renamedPkgStep out (JVal.obj (pythonInsert p "previous_names" (JVal.list [JVal.str s]))) := by
  have hA := lookup_pythonInsert_self p "previous_names" (JVal.str s)
  have hB := lookup_pythonInsert_self p "previous_names" (JVal.list [JVal.str s])
  have hnameA : lookupKey (pythonInsert p "previous_names" (JVal.str s)) "name"
      = lookupKey p "name" := lookup_pythonInsert_ne _ _ _ _ (by decide)
  have hnameB : lookupKey (pythonInsert p "previous_names" (JVal.list [JVal.str s])) "name"
      = lookupKey p "name" := lookup_pythonInsert_ne _ _ _ _ (by decide)
  cases hn : lookupKey p "name" with
  | none =>
      simp [renamedPkgStep, hA, hB, prevNamesLoop, prevNameStep, hnameA, hnameB, hn]
  | some v =>
      simp [renamedPkgStep, hA, hB, prevNamesLoop, prevNameStep, hnameA, hnameB, hn]

/-- Congruence for the package loop when exactly one element is replaced
by one with the same step behaviour. -/
theorem renamedPkgsLoop_congr (l1 l2 : List JVal) (a b : JVal)
    (h : ∀ out, renamedPkgStep out a = renamedPkgStep out b) :
    ∀ out, renamedPkgsLoop out (l1 ++ a :: l2) = renamedPkgsLoop out (l1 ++ b :: l2) := by
  induction l1 with
  | nil =>
      intro out
      simp only [List.nil_append, renamedPkgsLoop]
      rw [h out]
  | cons x t ih =>
      intro out
      simp only [List.cons_append, renamedPkgsLoop]
      cases hx : renamedPkgStep out x with
      | ok out' => exact ih out'
      | error e => rfl

/-- Congruence for the repository loop when the two caches agree on every
key up to package-loop behaviour. -/
theorem renamedRepoLoop_congr (cA cB : JObj)
    (h : ∀ k, lookupKey cA k = lookupKey cB k ∨
      ∃ pA pB, lookupKey cA k = some (JVal.list pA) ∧ lookupKey cB k = some (JVal.list pB) ∧
        ∀ out, renamedPkgsLoop out pA = renamedPkgsLoop out pB) :
    ∀ ks out, renamedRepoLoop cA out ks = renamedRepoLoop cB out ks := by
  intro ks
  induction ks with
  | nil => intro out; rfl
  | cons k t ih =>
      intro out
      rcases h k with heq | ⟨pA, pB, hA, hB, hloop⟩
      · cases hv : lookupKey cB k with
        | none => simp only [renamedRepoLoop, heq, hv]
        | some v =>
            cases v with
            | list pkgs =>
                simp only [renamedRepoLoop, heq, hv]
                cases hl : renamedPkgsLoop out pkgs with
                | ok out' => exact ih out'
                | error e => rfl
            | null => simp only [renamedRepoLoop, heq, hv]
            | bool bb => simp only [renamedRepoLoop, heq, hv]
            | num n => simp only [renamedRepoLoop, heq, hv]
            | str s => simp only [renamedRepoLoop, heq, hv]
            | obj o => simp only [renamedRepoLoop, heq, hv]
      · simp only [renamedRepoLoop, hA, hB]
        rw [hloop out]
        cases hl : renamedPkgsLoop out pB with
        | ok out' => exact ih out'
        | error e => rfl

/-- Claim C7: for schema major ≥ 2, two channel documents identical
except that one package record carries `previous_names` as the bare
string `s` in one and as the singleton list `[s]` in the other produce
the same `get_renamed_packages` mapping (in particular the same entry
`s -> current name`).  The document shape quantifies over arbitrary
surrounding keys (`rest`), cache entries (`c1`, `c2`) and neighbouring
packages (`l1`, `l2`). -/
theorem c7_previous_names_string_or_list (major : Nat) (hmaj : 2 ≤ major)
    (rest : JObj) (c1 c2 : List (String × JVal)) (repo : String)
    (l1 l2 : List JVal) (p : JObj) (s : String) :
    get_renamed_packages major
      (pythonInsert rest "packages_cache"
        (JVal.obj (c1 ++ (repo, JVal.list
          (l1 ++ JVal.obj (pythonInsert p "previous_names" (JVal.str s)) :: l2)) :: c2)))
    = get_renamed_packages major
      (pythonInsert rest "packages_cache"
        (JVal.obj (c1 ++ (repo, JVal.list
          (l1 ++ JVal.obj (pythonInsert p "previous_names" (JVal.list [JVal.str s])) :: l2)) :: c2))) := by
  have hstep : ∀ out,
      renamedPkgStep out (JVal.obj (pythonInsert p "previous_names" (JVal.str s)))
      = renamedPkgStep out (JVal.obj (pythonInsert p "previous_names" (JVal.list [JVal.str s]))) :=
    fun out => renamedPkgStep_prev_string_list out p s
  have hloop := renamedPkgsLoop_congr l1 l2 _ _ hstep
  have hcaches : ∀ k,
      lookupKey (c1 ++ (repo, JVal.list
        (l1 ++ JVal.obj (pythonInsert p "previous_names" (JVal.str s)) :: l2)) :: c2) k
        = lookupKey (c1 ++ (repo, JVal.list
        (l1 ++ JVal.obj (pythonInsert p "previous_names" (JVal.list [JVal.str s])) :: l2)) :: c2) k ∨
      ∃ pA pB, lookupKey (c1 ++ (repo, JVal.list
        (l1 ++ JVal.obj (pythonInsert p "previous_names" (JVal.str s)) :: l2)) :: c2) k
          = some (JVal.list pA) ∧
        lookupKey (c1 ++ (repo, JVal.list
        (l1 ++ JVal.obj (pythonInsert p "previous_names" (JVal.list [JVal.str s])) :: l2)) :: c2) k
          = some (JVal.list pB) ∧
        ∀ out, renamedPkgsLoop out pA = renamedPkgsLoop out pB := by
    intro k
    rw [lookupKey_append, lookupKey_append]
    cases hc : lookupKey c1 k with
    | some v => left; rfl
    | none =>
        by_cases hk : repo = k
        · subst hk
          right
          exact ⟨_, _, by rw [lookupKey_cons_self], by rw [lookupKey_cons_self], hloop⟩
        · left
          rw [lookupKey_cons_ne _ _ _ _ hk, lookupKey_cons_ne _ _ _ _ hk]
  have hcong := renamedRepoLoop_congr _ _ hcaches
  have hkeys : keys (c1 ++ (repo, JVal.list
        (l1 ++ JVal.obj (pythonInsert p "previous_names" (JVal.str s)) :: l2)) :: c2)
      = keys (c1 ++ (repo, JVal.list
        (l1 ++ JVal.obj (pythonInsert p "previous_names" (JVal.list [JVal.str s])) :: l2)) :: c2) := by
    simp [keys]
  simp only [get_renamed_packages, if_pos hmaj, lookup_pythonInsert_self]
  rw [hkeys, hcong _ []]

/-- Witness for C7: the concrete schema-3 document with one package named
`New` whose `previous_names` is the bare string `"old"` (resp. `["old"]`)
yields the same mapping `{"old": "New"}` in both forms. -/
theorem c7_previous_names_string_or_list_witness :
    get_renamed_packages 3
      (pythonInsert [("schema_version", JVal.str "3.0.0")] "packages_cache"
        (JVal.obj ([] ++ ("https://r", JVal.list
          ([] ++ JVal.obj (pythonInsert [("name", JVal.str "New")] "previous_names"
            (JVal.str "old")) :: [])) :: [])))
    = get_renamed_packages 3
      (pythonInsert [("schema_version", JVal.str "3.0.0")] "packages_cache"
        (JVal.obj ([] ++ ("https://r", JVal.list
          ([] ++ JVal.obj (pythonInsert [("name", JVal.str "New")] "previous_names"
            (JVal.list [JVal.str "old"])) :: [])) :: [])))
    ∧ get_renamed_packages 3
      (pythonInsert [("schema_version", JVal.str "3.0.0")] "packages_cache"
        (JVal.obj ([] ++ ("https://r", JVal.list
          ([] ++ JVal.obj (pythonInsert [("name", JVal.str "New")] "previous_names"
            (JVal.str "old")) :: [])) :: [])))
      = .ok (JVal.obj [("old", JVal.str "New")]) :=
  ⟨c7_previous_names_string_or_list 3 (by omega) [("schema_version", JVal.str "3.0.0")]
      [] [] "https://r" [] [] [("name", JVal.str "New")] "old",
   rfl⟩

/-! ## Claim C5 -/

/-- The repository-entry resolution rules as the spec words them (§4.3,
§4.5): protocol-relative entries are prefixed with the channel URL's
scheme (`https:` for a filesystem channel), root-absolute entries are
dropped, `./`/`../` entries are resolved by URL join against an HTTP(S)
channel or by path join plus normalisation against the channel file's
directory, and any other entry passes through unchanged. -/
def resolveEntrySpec (ctx : Ctx) (channel_url : String) (entry : String) : Option String :=
  if strStarts entry "//" then
    some ((match schemeMatch channel_url with
           | some scheme => scheme
           | none => "https:") ++ entry)
  else if strStarts entry "/" then none
  else if strStarts entry "./" ∨ strStarts entry "../" then
    some (if (schemeMatch channel_url).isSome then ctx.urljoin channel_url entry
          else normpath (pathJoin (dirname channel_url) entry))
  else some entry

/-- The spec-side description of `get_repositories`: resolve every entry
in original order, drop the rejected ones, then pass each survivor
through the URL-rewrite utility (duplicates preserved, no dedup). -/
def getRepositoriesSpec (ctx : Ctx) (channel_url : String) (entries : List String) : List String :=
  (entries.filterMap (resolveEntrySpec ctx channel_url)).map ctx.update_url

theorem reposLoop_spec (ctx : Ctx) (cu : String) : ∀ (rs : List String) (out : List String),
    reposLoop ctx cu (schemeMatch cu) (dirname cu) out (rs.map JVal.str)
    = .ok (out ++ getRepositoriesSpec ctx cu rs) := by
  intro rs
  induction rs with
  | nil =>
      intro out
      simp [reposLoop, getRepositoriesSpec]
  | cons r t ih =>
      intro out
      cases h1 : strStarts r "//" with
      | true =>
          simp [reposLoop, h1, ih, getRepositoriesSpec, resolveEntrySpec, List.append_assoc]
      | false =>
          cases h2 : strStarts r "/" with
          | true =>
              simp [reposLoop, h1, h2, ih, getRepositoriesSpec, resolveEntrySpec]
          | false =>
              by_cases h3 : strStarts r "./" = true ∨ strStarts r "../" = true
              · simp [reposLoop, h1, h2, h3, ih, getRepositoriesSpec, resolveEntrySpec,
                  List.append_assoc]
              · simp [reposLoop, h1, h2, h3, ih, getRepositoriesSpec, resolveEntrySpec,
                  List.append_assoc]

/-- Claim C5: for every fetched document whose `repositories` entry is a
list of strings, `get_repositories` returns exactly the spec-side
resolution: entries in original order (duplicates preserved),
protocol-relative entries scheme-prefixed, root-absolute entries
silently dropped, relative entries URL-joined (HTTP channel) or
path-joined and normalised (filesystem channel), all else passed
through, and every survivor rewritten by the URL-rewrite utility. -/
theorem c5_get_repositories_resolution (ctx : Ctx) (p : ChannelProvider) (doc : JObj)
    (rs : List String)
    (h : lookupKey doc "repositories" = some (JVal.list (rs.map JVal.str))) :
    get_repositories ctx p doc = .ok (getRepositoriesSpec ctx p.channel_url rs) := by
  simp only [get_repositories, h]
  rw [reposLoop_spec]
  rfl

/-- Witness for C5 at a filesystem channel `/a/b/channel.json`:
`../other/channel.json` resolves to `/a/other/channel.json` (the spec's
own example), `/etc/passwd` is dropped, `//cdn.example.com/x` gets
`https:`, and an ordinary URL passes through. -/
theorem c5_get_repositories_resolution_witness :
    get_repositories ctxId ⟨"/a/b/channel.json"⟩
      [("schema_version", JVal.str "3.0.0"),
       ("repositories", JVal.list
         [JVal.str "../other/channel.json", JVal.str "/etc/passwd",
          JVal.str "//cdn.example.com/x", JVal.str "https://k.example/repo.json"])]
    = .ok ["/a/other/channel.json", "https://cdn.example.com/x",
           "https://k.example/repo.json"] := by
  have h := c5_get_repositories_resolution ctxId ⟨"/a/b/channel.json"⟩
    [("schema_version", JVal.str "3.0.0"),
     ("repositories", JVal.list
       [JVal.str "../other/channel.json", JVal.str "/etc/passwd",
        JVal.str "//cdn.example.com/x", JVal.str "https://k.example/repo.json"])]
    ["../other/channel.json", "/etc/passwd", "//cdn.example.com/x",
     "https://k.example/repo.json"] rfl
  rw [h]
  rfl

/-! ## Release-loop machinery -/

theorem lookup_renameRelease_other (major : Nat) (r : JObj) (k : String)
    (h1 : k ≠ "dependencies") (h2 : k ≠ "libraries") :
    lookupKey (renameRelease major r) k = lookupKey r k := by
  unfold renameRelease
  split
  · cases hd : lookupKey r "dependencies" with
    | none => rfl
    | some v =>
        rw [lookup_removeKey_ne _ _ _ (fun hh => h1 hh.symm),
            lookup_pythonInsert_ne _ _ _ _ (fun hh => h2 hh.symm)]
  · rfl

theorem lookup_renameRelease_deps_none (major : Nat) (r : JObj)
    (hnd : (keys r).Nodup) (hmaj : major < 4) :
    lookupKey (renameRelease major r) "dependencies" = none := by
  unfold renameRelease
  rw [if_pos hmaj]
  cases hd : lookupKey r "dependencies" with
  | none => exact hd
  | some v =>
      exact lookup_removeKey_self _ _ (nodup_keys_pythonInsert _ _ _ hnd)

theorem renameRelease_idem (major : Nat) (r : JObj) (hnd : (keys r).Nodup) :
    renameRelease major (renameRelease major r) = renameRelease major r := by
  by_cases hmaj : major < 4
  · have hdeps := lookup_renameRelease_deps_none major r hnd hmaj
    nth_rewrite 1 [renameRelease]
    rw [if_pos hmaj, hdeps]
  · nth_rewrite 1 [renameRelease]
    rw [if_neg hmaj]

theorem renameR_idem (major : Nat) (r : JVal)
    (hnd : ∀ ro, r = JVal.obj ro → (keys ro).Nodup) :
    renameR major (renameR major r) = renameR major r := by
  cases r with
  | obj ro =>
      simp only [renameR]
      rw [renameRelease_idem major ro (hnd ro rfl)]
  | null => rfl
  | bool b => rfl
  | num n => rfl
  | str s => rfl
  | list l => rfl

theorem relDates_map_renameR (major : Nat) (rels : List JVal) :
    relDates (rels.map (renameR major)) = relDates rels := by
  unfold relDates
  rw [List.map_map]
  apply List.map_congr_left
  intro r _
  cases r with
  | obj ro =>
      simp only [Function.comp_apply, renameR]
      exact lookup_renameRelease_other major ro "date" (by decide) (by decide)
  | null => rfl
  | bool b => rfl
  | num n => rfl
  | str s => rfl
  | list l => rfl

theorem releaseStep_ok (major : Nat) (a : Option JVal) (l : List JVal) (r : JVal)
    (res : Option JVal × List JVal) (h : releaseStep major (a, l) r = .ok res) :
    ∃ ro lm, r = JVal.obj ro ∧ lmStep a (lookupKey ro "date") = .ok lm ∧
      res = (lm, l ++ [renameR major r]) := by
  cases r with
  | obj ro =>
      simp only [releaseStep] at h
      cases hs : lmStep a (lookupKey ro "date") with
      | ok lm =>
          rw [hs] at h
          simp only at h
          exact ⟨ro, lm, rfl, hs, by cases h; rfl⟩
      | error e =>
          rw [hs] at h
          simp at h
  | null => simp [releaseStep] at h
  | bool b => simp [releaseStep] at h
  | num n => simp [releaseStep] at h
  | str s => simp [releaseStep] at h
  | list xs => simp [releaseStep] at h

theorem releasesLoop_shape (major : Nat) : ∀ (rels : List JVal) (a : Option JVal)
    (l : List JVal) (res : Option JVal × List JVal),
    releasesLoop major (a, l) rels = .ok res →
    (∀ r ∈ rels, ∃ ro, r = JVal.obj ro) ∧
    ∃ lm, lmLoop a (relDates rels) = .ok lm ∧ res = (lm, l ++ rels.map (renameR major)) := by
  intro rels
  induction rels with
  | nil =>
      intro a l res h
      simp only [releasesLoop] at h
      refine ⟨by simp, a, rfl, ?_⟩
      cases h
      simp [relDates]
  | cons r t ih =>
      intro a l res h
      simp only [releasesLoop] at h
      cases hs : releaseStep major (a, l) r with
      | error e => rw [hs] at h; simp at h
      | ok acc' =>
          rw [hs] at h
          simp only at h
          obtain ⟨ro, lm1, rfl, hlm1, hacc⟩ := releaseStep_ok major a l _ acc' hs
          subst hacc
          obtain ⟨hobjs, lm, hlm, hres⟩ := ih lm1 (l ++ [renameR major (JVal.obj ro)]) res h
          refine ⟨?_, lm, ?_, ?_⟩
          · intro x hx
            rcases List.mem_cons.mp hx with rfl | hx
            · exact ⟨ro, rfl⟩
            · exact hobjs x hx
          · simp only [relDates, List.map_cons, lmLoop, hlm1]
            simpa [relDates] using hlm
          · rw [hres]
            simp [List.append_assoc]

theorem releasesLoop_of (major : Nat) : ∀ (rels : List JVal) (a : Option JVal)
    (l : List JVal) (lm : Option JVal),
    (∀ r ∈ rels, ∃ ro, r = JVal.obj ro) →
    lmLoop a (relDates rels) = .ok lm →
    releasesLoop major (a, l) rels = .ok (lm, l ++ rels.map (renameR major)) := by
  intro rels
  induction rels with
  | nil =>
      intro a l lm _ hlm
      simp only [relDates, List.map_nil, lmLoop] at hlm
      cases hlm
      simp [releasesLoop]
  | cons r t ih =>
      intro a l lm hobjs hlm
      obtain ⟨ro, rfl⟩ := hobjs r (List.mem_cons_self _ _)
      simp only [relDates, List.map_cons, lmLoop] at hlm
      cases hs : lmStep a (lookupKey ro "date") with
      | error e => rw [hs] at hlm; simp at hlm
      | ok lm1 =>
          rw [hs] at hlm
          simp only at hlm
          have hrec := ih lm1 (l ++ [renameR major (JVal.obj ro)]) lm
            (fun x hx => hobjs x (List.mem_cons_of_mem _ hx)) (by
              simpa [relDates] using hlm)
          simp only [releasesLoop, releaseStep, hs]
          have hr : JVal.obj (renameRelease major ro) = renameR major (JVal.obj ro) := rfl
          rw [hr, hrec]
          simp [List.append_assoc]

/-- Inversion of a successful `processPackage` run at schema major ≥ 2:
the record must carry a `releases` list of dicts, `last_modified` comes
from `lmLoop` over their `date` entries, the cached record's releases
are renamed in place, and the output record is produced by
`finishPackage` from the mutated copy. -/
theorem processPackage_ge2_ok (ctx : Ctx) (major : Nat) (pkg : JObj)
    (nm : String) (rec cached : JVal)
    (hmaj : 2 ≤ major)
    (h : processPackage ctx major (JVal.obj pkg) = .ok (nm, rec, cached)) :
    ∃ rels lm,
      lookupKey pkg "releases" = some (JVal.list rels) ∧
      (∀ r ∈ rels, ∃ ro, r = JVal.obj ro) ∧
      lmLoop none (relDates rels) = .ok lm ∧
      cached = JVal.obj (pythonInsert pkg "releases" (JVal.list (rels.map (renameR major)))) ∧
      finishPackage ctx (pythonInsert (pythonInsert pkg "releases"
        (JVal.list (rels.map (renameR major)))) "last_modified" (jvalOfOpt lm))
        = .ok (nm, rec) := by
  have hnot : ¬ major < 2 := by omega
  simp only [processPackage] at h
  rw [if_neg hnot] at h
  cases hrel : lookupKey pkg "releases" with
  | none =>
      exfalso
      rw [hrel] at h
      have hlk : lookupKey (fillDefaults (pythonInsert pkg "last_modified" (jvalOfOpt none)))
          "releases" = none := by
        rw [lookup_fillDefaults_ne _ _ (by refine ⟨?_, ?_, ?_, ?_, ?_, ?_⟩ <;> decide)]
        rw [lookup_pythonInsert_ne _ _ _ _ (by decide)]
        exact hrel
      have hfin : finishPackage ctx (pythonInsert pkg "last_modified" (jvalOfOpt none))
          = .error (.keyError "releases") := by
        simp only [finishPackage, hlk]
      simp only [Option.getD_none, releasesLoop, Option.isSome_none, Bool.false_eq_true,
        if_false, hfin] at h
      exact Except.noConfusion h
  | some v =>
      rw [hrel] at h
      cases v with
      | list rels =>
          simp only [Option.getD_some] at h
          cases hloop : releasesLoop major (none, []) rels with
          | error e => rw [hloop] at h; simp at h
          | ok acc =>
              rw [hloop] at h
              obtain ⟨lm, renamed⟩ := acc
              obtain ⟨hobjs, lm', hlm, hres⟩ := releasesLoop_shape major rels none [] _ hloop
              rw [Prod.mk.injEq] at hres
              obtain ⟨h1, h2⟩ := hres
              subst h1
              simp only [List.nil_append] at h2
              subst h2
              simp only [hrel, Option.isSome_some, if_true] at h
              cases hfin : finishPackage ctx
                  (pythonInsert (pythonInsert pkg "releases"
                    (JVal.list (rels.map (renameR major)))) "last_modified" (jvalOfOpt lm)) with
              | error e => rw [hfin] at h; simp at h
              | ok pr =>
                  obtain ⟨nm', rec'⟩ := pr
                  rw [hfin] at h
                  simp only [Except.ok.injEq, Prod.mk.injEq] at h
                  obtain ⟨h1, h2, h3⟩ := h
                  subst h1; subst h2
                  exact ⟨rels, lm, rfl, hobjs, hlm, h3.symm, hfin⟩
      | null => simp at h
      | bool b => simp at h
      | num n => simp at h
      | str s => simp at h
      | obj o => simp at h

/-! ## Claim C4 -/

theorem platforms_to_releases_length (pkg : JObj) (ps : List JVal)
    (h : lookupKey pkg "platforms" = some (JVal.list ps)) :
    (platforms_to_releases pkg).length = ps.length := by
  simp [platforms_to_releases, h]

/-- Claim C4: for a schema major < 2 document whose (single-record)
repository entry carries a `platforms` list and no `releases` list,
`get_packages` returns that record with `releases` set to the
`version_sort` of the list synthesized by the platforms→releases shim —
non-empty whenever the record has at least one platform entry (the sort
being a permutation) — and with the `platforms` key removed.  The shim
itself is modelled from the spec (its module is not under src/). -/
theorem c4_platforms_synthesis (ctx : Ctx) (major : Nat) (doc cache pkg : JObj)
    (ps : List JVal) (nm : String) (u : String)
    (hmaj : major < 2)
    (hperm : ∀ l, List.Perm (ctx.version_sort l) l)
    (hnodup : (keys pkg).Nodup)
    (hcache : lookupKey doc "packages" = some (JVal.obj cache))
    (hrepo : lookupKey cache (ctx.update_url u) = some (JVal.list [JVal.obj pkg]))
    (hplat : lookupKey pkg "platforms" = some (JVal.list ps))
    (hps : ps ≠ [])
    (_hnorel : lookupKey pkg "releases" = none)
    (hname : lookupKey pkg "name" = some (JVal.str nm)) :
    ∃ ro,
      get_packages ctx major doc u
        = .ok ([(nm, JVal.obj ro)],
            pythonInsert doc "packages"
              (JVal.obj (pythonInsert cache (ctx.update_url u) (JVal.list [JVal.obj pkg]))))
      ∧ lookupKey ro "releases"
          = some (JVal.list (ctx.version_sort (platforms_to_releases pkg)))
      ∧ ctx.version_sort (platforms_to_releases pkg) ≠ []
      ∧ lookupKey ro "platforms" = none := by
  have hkey : packagesKey major = "packages" := by
    unfold packagesKey
    rw [if_neg (by omega)]
  -- the record after `copy['releases'] = ...; del copy['platforms']`
  have hp1 : lookupKey (pythonInsert pkg "releases" (JVal.list (platforms_to_releases pkg)))
      "platforms" = some (JVal.list ps) := by
    rw [lookup_pythonInsert_ne _ _ _ _ (by decide)]
    exact hplat
  have hrel2 : lookupKey (removeKey (pythonInsert pkg "releases"
      (JVal.list (platforms_to_releases pkg))) "platforms") "releases"
      = some (JVal.list (platforms_to_releases pkg)) := by
    rw [lookup_removeKey_ne _ _ _ (by decide)]
    exact lookup_pythonInsert_self _ _ _
  have hrel3 : lookupKey (fillDefaults (removeKey (pythonInsert pkg "releases"
      (JVal.list (platforms_to_releases pkg))) "platforms")) "releases"
      = some (JVal.list (platforms_to_releases pkg)) := by
    rw [lookup_fillDefaults_ne _ _ (by refine ⟨?_, ?_, ?_, ?_, ?_, ?_⟩ <;> decide)]
    exact hrel2
  have hname4 : lookupKey (pythonInsert (fillDefaults (removeKey (pythonInsert pkg "releases"
      (JVal.list (platforms_to_releases pkg))) "platforms")) "releases"
      (JVal.list (ctx.version_sort (platforms_to_releases pkg)))) "name"
      = some (JVal.str nm) := by
    rw [lookup_pythonInsert_ne _ _ _ _ (by decide)]
    rw [lookup_fillDefaults_ne _ _ (by refine ⟨?_, ?_, ?_, ?_, ?_, ?_⟩ <;> decide)]
    rw [lookup_removeKey_ne _ _ _ (by decide)]
    rw [lookup_pythonInsert_ne _ _ _ _ (by decide)]
    exact hname
  have hfin : finishPackage ctx (removeKey (pythonInsert pkg "releases"
      (JVal.list (platforms_to_releases pkg))) "platforms")
      = .ok (nm, JVal.obj (pythonInsert (fillDefaults (removeKey (pythonInsert pkg "releases"
        (JVal.list (platforms_to_releases pkg))) "platforms")) "releases"
        (JVal.list (ctx.version_sort (platforms_to_releases pkg))))) := by
    simp only [finishPackage, hrel3, hname4]
  have hproc : processPackage ctx major (JVal.obj pkg)
      = .ok (nm, JVal.obj (pythonInsert (fillDefaults (removeKey (pythonInsert pkg "releases"
        (JVal.list (platforms_to_releases pkg))) "platforms")) "releases"
        (JVal.list (ctx.version_sort (platforms_to_releases pkg)))), JVal.obj pkg) := by
    simp only [processPackage]
    rw [if_pos hmaj]
    simp only [hp1, Option.isSome_some, if_true, hfin]
  refine ⟨pythonInsert (fillDefaults (removeKey (pythonInsert pkg "releases"
      (JVal.list (platforms_to_releases pkg))) "platforms")) "releases"
      (JVal.list (ctx.version_sort (platforms_to_releases pkg))),
    ?_, lookup_pythonInsert_self _ _ _, ?_, ?_⟩
  · simp only [get_packages, hkey, hcache, hrepo, packagesLoop, hproc]
    rfl
  · intro h0
    have hp := hperm (platforms_to_releases pkg)
    rw [h0] at hp
    have hnil : platforms_to_releases pkg = [] := List.Perm.eq_nil hp.symm
    have hlen := platforms_to_releases_length pkg ps hplat
    rw [hnil] at hlen
    exact hps (List.length_eq_zero.mp hlen.symm)
  · rw [lookup_pythonInsert_ne _ _ _ _ (by decide)]
    rw [lookup_fillDefaults_ne _ _ (by refine ⟨?_, ?_, ?_, ?_, ?_, ?_⟩ <;> decide)]
    exact lookup_removeKey_self _ _ (nodup_keys_pythonInsert _ _ _ hnodup)

def c4pkg : JObj :=
  [("name", JVal.str "P"), ("description", JVal.str "d"),
   ("author", JVal.str "a"), ("homepage", JVal.str "h"),
   ("last_modified", JVal.str "2014-01-01 00:00:00"),
   ("url", JVal.str "https://dl/p.zip"), ("version", JVal.str "1.0.0"),
   ("platforms", JVal.list [JVal.str "*"])]

/-- Witness for C4: a `schema_version: 1` document with one package whose
record has `platforms: ["*"]` and no `releases` list. -/
theorem c4_platforms_synthesis_witness :
    ∃ ro,
      get_packages ctxId 1
        [("schema_version", JVal.num 1),
         ("packages", JVal.obj [("https://r1", JVal.list [JVal.obj c4pkg])])]
        "https://r1"
        = .ok ([("P", JVal.obj ro)],
            pythonInsert
              [("schema_version", JVal.num 1),
               ("packages", JVal.obj [("https://r1", JVal.list [JVal.obj c4pkg])])]
              "packages"
              (JVal.obj (pythonInsert [("https://r1", JVal.list [JVal.obj c4pkg])]
                "https://r1" (JVal.list [JVal.obj c4pkg]))))
      ∧ lookupKey ro "releases"
          = some (JVal.list (ctxId.version_sort (platforms_to_releases c4pkg)))
      ∧ ctxId.version_sort (platforms_to_releases c4pkg) ≠ []
      ∧ lookupKey ro "platforms" = none :=
  c4_platforms_synthesis ctxId 1 _ _ c4pkg [JVal.str "*"] "P" "https://r1"
    (by omega) (fun l => List.Perm.refl l) (by decide) rfl rfl rfl
    (List.cons_ne_nil _ _) rfl rfl

/-! ## Claim C3 -/

/-- Python truthiness of `release.get('date')` restricted to
string-or-absent dates. -/
def truthyS : Option String → Bool
  | none => false
  | some s => s ≠ ""

/-- `lmStep` specialised to string-or-absent dates. -/
def lmStepS (lm d : Option String) : Option String :=
  if !truthyS lm then d
  else
    match d, lm with
    | some ds, some ls => if ds ≠ "" then (if strLt ls ds then some ds else some ls) else some ls
    | none, _ => lm
    | some _, none => d

/-- `lmLoop` specialised to string-or-absent dates. -/
def lmFoldS : Option String → List (Option String) → Option String
  | a, [] => a
  | a, d :: t => lmFoldS (lmStepS a d) t

theorem lmStep_str (a d : Option String) :
    lmStep (a.map JVal.str) (d.map JVal.str) = .ok ((lmStepS a d).map JVal.str) := by
  cases a with
  | none => cases d <;> rfl
  | some l =>
      by_cases hl : l = ""
      · subst hl
        cases d <;> rfl
      · cases d with
        | none =>
            simp [lmStep, lmStepS, truthyOpt, truthy, truthyS, hl]
        | some s =>
            by_cases hs : s = ""
            · subst hs
              simp [lmStep, lmStepS, truthyOpt, truthy, truthyS, hl]
            · by_cases hls : strLt l s = true
              · simp [lmStep, lmStepS, truthyOpt, truthy, truthyS, pyGT, hl, hs, hls]
              · simp [lmStep, lmStepS, truthyOpt, truthy, truthyS, pyGT, hl, hs, hls]

theorem lmLoop_str (ds : List (Option String)) : ∀ a : Option String,
    lmLoop (a.map JVal.str) (ds.map (Option.map JVal.str)) = .ok ((lmFoldS a ds).map JVal.str) := by
  induction ds with
  | nil => intro a; rfl
  | cons d t ih =>
      intro a
      simp only [List.map_cons, lmLoop, lmStep_str a d, lmFoldS]
      exact ih (lmStepS a d)

/-- The release dates that Python truthiness lets contribute to the
maximum: the non-empty declared dates. -/
def filterTruthyDates : List (Option String) → List String
  | [] => []
  | some s :: t => if s = "" then filterTruthyDates t else s :: filterTruthyDates t
  | none :: t => filterTruthyDates t

/-- Lexicographic running maximum. -/
def maxStr (a : String) (l : List String) : String :=
  l.foldl (fun x y => if strLt x y then y else x) a

theorem maxStr_cons (a y : String) (l : List String) :
    maxStr a (y :: l) = maxStr (if strLt a y then y else a) l := rfl

def optJoin (x : Option (Option String)) : Option String :=
  match x with
  | some d => d
  | none => none

/-- What the code actually computes (amended claim): the maximum over
the non-empty declared dates; when there is none, the final release's
`date` entry (possibly the empty string, `none` when absent or when the
release list is empty). -/
def lastModifiedAmended (ds : List (Option String)) : Option String :=
  match filterTruthyDates ds with
  | [] => optJoin ds.getLast?
  | t :: ts => some (maxStr t ts)

/-- What claim C3 states: the maximum `date` over all releases that
declare one, `null` when no release declares a date. -/
def lastModifiedClaim (ds : List (Option String)) : Option String :=
  match ds.filterMap id with
  | [] => none
  | t :: ts => some (maxStr t ts)

theorem lmFoldS_truthy (ds : List (Option String)) : ∀ s : String, s ≠ "" →
    lmFoldS (some s) ds = some (maxStr s (filterTruthyDates ds)) := by
  induction ds with
  | nil => intro s _; rfl
  | cons d t ih =>
      intro s hs
      cases d with
      | none =>
          have hstep : lmStepS (some s) none = some s := by
            simp [lmStepS, truthyS, hs]
          rw [show lmFoldS (some s) (none :: t) = lmFoldS (lmStepS (some s) none) t from rfl,
            hstep, show filterTruthyDates (none :: t) = filterTruthyDates t from rfl]
          exact ih s hs
      | some x =>
          by_cases hx : x = ""
          · subst hx
            have hstep : lmStepS (some s) (some "") = some s := by
              simp [lmStepS, truthyS, hs]
            rw [show lmFoldS (some s) (some "" :: t) = lmFoldS (lmStepS (some s) (some "")) t
              from rfl, hstep]
            rw [show filterTruthyDates (some "" :: t) = filterTruthyDates t by
              simp [filterTruthyDates]]
            exact ih s hs
          · have hft : filterTruthyDates (some x :: t) = x :: filterTruthyDates t := by
              simp [filterTruthyDates, hx]
            rw [hft, maxStr_cons]
            by_cases hsx : strLt s x = true
            · have hstep : lmStepS (some s) (some x) = some x := by
                simp [lmStepS, truthyS, hs, hx, hsx]
              rw [show lmFoldS (some s) (some x :: t) = lmFoldS (lmStepS (some s) (some x)) t
                from rfl, hstep, if_pos hsx]
              exact ih x hx
            · have hstep : lmStepS (some s) (some x) = some s := by
                simp [lmStepS, truthyS, hs, hx, hsx]
              rw [show lmFoldS (some s) (some x :: t) = lmFoldS (lmStepS (some s) (some x)) t
                from rfl, hstep, if_neg hsx]
              exact ih s hs

theorem lmFoldS_falsy (ds : List (Option String)) : ∀ a : Option String, truthyS a = false →
    lmFoldS a ds = (match filterTruthyDates ds with
      | [] => (match ds.getLast? with | some d => d | none => a)
      | t :: ts => some (maxStr t ts)) := by
  induction ds with
  | nil => intro a _; rfl
  | cons d t ih =>
      intro a ha
      have hstep : lmStepS a d = d := by
        simp [lmStepS, ha]
      rw [show lmFoldS a (d :: t) = lmFoldS (lmStepS a d) t from rfl, hstep]
      cases d with
      | some x =>
          by_cases hx : x = ""
          · subst hx
            rw [ih (some "") (by simp [truthyS])]
            cases t with
            | nil => simp [filterTruthyDates]
            | cons y t' =>
                rw [show filterTruthyDates (some "" :: y :: t') = filterTruthyDates (y :: t') by
                  simp [filterTruthyDates]]
                rw [List.getLast?_cons_cons]
                cases hft : filterTruthyDates (y :: t') with
                | nil =>
                    cases hgl : (y :: t').getLast? with
                    | none => exact absurd (List.getLast?_eq_none_iff.mp hgl) (by simp)
                    | some e => rfl
                | cons f fs => rfl
          · rw [lmFoldS_truthy t x hx]
            rw [show filterTruthyDates (some x :: t) = x :: filterTruthyDates t by
              simp [filterTruthyDates, hx]]
      | none =>
          rw [ih none (by simp [truthyS])]
          cases t with
          | nil => simp [filterTruthyDates]
          | cons y t' =>
              rw [show filterTruthyDates (none :: y :: t') = filterTruthyDates (y :: t')
                from rfl]
              rw [List.getLast?_cons_cons]
              cases hft : filterTruthyDates (y :: t') with
              | nil =>
                  cases hgl : (y :: t').getLast? with
                  | none => exact absurd (List.getLast?_eq_none_iff.mp hgl) (by simp)
                  | some e => rfl
              | cons f fs => rfl

theorem lmFoldS_none (ds : List (Option String)) :
    lmFoldS none ds = lastModifiedAmended ds := by
  rw [lmFoldS_falsy ds none rfl]
  unfold lastModifiedAmended optJoin
  cases hft : filterTruthyDates ds with
  | nil => cases ds.getLast? <;> rfl
  | cons f fs => rfl

/-- A successful `finishPackage` leaves every binding outside
`releases` and the defaults table unchanged in the output record. -/
theorem finishPackage_lookup (ctx : Ctx) (copy : JObj) (nm : String) (recv : JVal) (k : String)
    (hfin : finishPackage ctx copy = .ok (nm, recv))
    (hk1 : k ≠ "releases")
    (hk : k ≠ "buy" ∧ k ≠ "issues" ∧ k ≠ "labels" ∧ k ≠ "previous_names" ∧
          k ≠ "readme" ∧ k ≠ "donate") :
    ∃ ro, recv = JVal.obj ro ∧ lookupKey ro k = lookupKey copy k := by
  simp only [finishPackage] at hfin
  cases hrel : lookupKey (fillDefaults copy) "releases" with
  | none => rw [hrel] at hfin; exact absurd hfin (by simp)
  | some v =>
      rw [hrel] at hfin
      cases v with
      | list rels =>
          simp only at hfin
          cases hname : lookupKey (pythonInsert (fillDefaults copy) "releases"
              (JVal.list (ctx.version_sort rels))) "name" with
          | none => rw [hname] at hfin; exact absurd hfin (by simp)
          | some nv =>
              rw [hname] at hfin
              cases nv with
              | str s =>
                  simp only [Except.ok.injEq, Prod.mk.injEq] at hfin
                  obtain ⟨h1, h2⟩ := hfin
                  refine ⟨_, h2.symm, ?_⟩
                  rw [lookup_pythonInsert_ne _ _ _ _ (fun hh => hk1 hh.symm)]
                  exact lookup_fillDefaults_ne _ _ hk
              | null => exact absurd hfin (by simp)
              | bool b => exact absurd hfin (by simp)
              | num n => exact absurd hfin (by simp)
              | list l => exact absurd hfin (by simp)
              | obj o => exact absurd hfin (by simp)
      | null => exact absurd hfin (by simp)
      | bool b => exact absurd hfin (by simp)
      | num n => exact absurd hfin (by simp)
      | str s => exact absurd hfin (by simp)
      | obj o => exact absurd hfin (by simp)

def c3pkg : JObj :=
  [("name", JVal.str "P"),
   ("releases", JVal.list [JVal.obj [("date", JVal.str "")], JVal.obj []])]

/-- The output record `get_packages` builds from `c3pkg`. -/
def c3rec : JObj :=
  match processPackage ctxId 3 (JVal.obj c3pkg) with
  | .ok (_, JVal.obj rec, _) => rec
  | _ => []

/-- Claim C3 counterexample: a major-3 record with releases
`[{date: ""}, {}]` declares the date `""`, whose lexical maximum over
declared dates is `""`; but the code's truthiness test makes the final
date-less release reset `last_modified`, so the output record carries
`last_modified = null`, not `""`. -/
theorem c3_empty_string_date_counterexample :
    relDates [JVal.obj [("date", JVal.str "")], JVal.obj []] = [some (JVal.str ""), none]
    ∧ lastModifiedClaim [some "", none] = some ""
    ∧ processPackage ctxId 3 (JVal.obj c3pkg) = .ok ("P", JVal.obj c3rec, JVal.obj c3pkg)
    ∧ lookupKey c3rec "last_modified" = some JVal.null
    ∧ JVal.null ≠ JVal.str "" :=
  ⟨rfl, rfl, rfl, rfl, fun h => JVal.noConfusion h⟩

/-- Claim C3 (amended): for schema major ≥ 2, a record whose releases
carry string-or-absent dates gets `last_modified` equal to the maximum
over the *non-empty* declared dates; when no release declares a
non-empty date it equals the last release's `date` entry (possibly the
empty string, `null` when the last release declares no date or the
release list is empty). -/
theorem c3_amended_last_modified (ctx : Ctx) (major : Nat) (pkg : JObj)
    (nm : String) (rec : JObj) (cached : JVal) (ds : List (Option String)) (rels : List JVal)
    (hmaj : 2 ≤ major)
    (hrels : lookupKey pkg "releases" = some (JVal.list rels))
    (hds : relDates rels = ds.map (Option.map JVal.str))
    (hok : processPackage ctx major (JVal.obj pkg) = .ok (nm, JVal.obj rec, cached)) :
    lookupKey rec "last_modified"
      = some ((lastModifiedAmended ds).elim JVal.null JVal.str) := by
  obtain ⟨rels', lm, hrels', hobjs, hlm, hcached, hfin⟩ :=
    processPackage_ge2_ok ctx major pkg nm (JVal.obj rec) cached hmaj hok
  rw [hrels] at hrels'
  simp only [Option.some.injEq, JVal.list.injEq] at hrels'
  subst hrels'
  have hlmval : lm = (lmFoldS none ds).map JVal.str := by
    rw [hds] at hlm
    have h2 := lmLoop_str ds none
    rw [show ((none : Option String).map JVal.str) = none from rfl] at h2
    rw [h2] at hlm
    simp only [Except.ok.injEq] at hlm
    exact hlm.symm
  obtain ⟨ro, hro, hlook⟩ := finishPackage_lookup ctx _ nm (JVal.obj rec) "last_modified" hfin
    (by decide) (by refine ⟨?_, ?_, ?_, ?_, ?_, ?_⟩ <;> decide)
  have hroeq : rec = ro := by
    injection hro
  subst hroeq
  rw [hlook, lookup_pythonInsert_self, hlmval, lmFoldS_none]
  cases lastModifiedAmended ds <;> rfl

def c3wpkg : JObj :=
  [("name", JVal.str "P"),
   ("releases", JVal.list
     [JVal.obj [("date", JVal.str "2020-01-01"), ("version", JVal.str "1.0.0")],
      JVal.obj [("date", JVal.str "2021-05-05"), ("version", JVal.str "1.1.0")],
      JVal.obj [("version", JVal.str "1.2.0")]])]

/-- The output record `get_packages` builds from `c3wpkg`. -/
def c3wrec : JObj :=
  match processPackage ctxId 3 (JVal.obj c3wpkg) with
  | .ok (_, JVal.obj rec, _) => rec
  | _ => []

/-- Witness for the amended C3: dates `2020-01-01`, `2021-05-05` and one
undated release give `last_modified = "2021-05-05"`. -/
theorem c3_amended_last_modified_witness :
    lookupKey c3wrec "last_modified" = some (JVal.str "2021-05-05") := by
  have h := c3_amended_last_modified ctxId 3 c3wpkg "P" c3wrec (JVal.obj c3wpkg)
    [some "2020-01-01", some "2021-05-05", none]
    [JVal.obj [("date", JVal.str "2020-01-01"), ("version", JVal.str "1.0.0")],
     JVal.obj [("date", JVal.str "2021-05-05"), ("version", JVal.str "1.1.0")],
     JVal.obj [("version", JVal.str "1.2.0")]]
    (by omega) rfl rfl (by rfl)
  exact h.trans (by rfl)

/-! ## Claim C2 -/

/-- JSON well-formedness of the release dicts of one package record:
decoded JSON objects never carry duplicate keys. -/
def PkgReleasesWf : JVal → Prop := fun p =>
  match p with
  | JVal.obj o =>
      match lookupKey o "releases" with
      | some (JVal.list rels) => ∀ r ∈ rels, ∀ ro, r = JVal.obj ro → (keys ro).Nodup
      | _ => True
  | _ => True

/-- JSON well-formedness of the package records of the queried repository
in the document's package cache. -/
def WfPackagesCache (major : Nat) (doc : JObj) (repo : String) : Prop :=
  match lookupKey doc (packagesKey major) with
  | some (JVal.obj cache) =>
      match lookupKey cache repo with
      | some (JVal.list pkgs) => ∀ p ∈ pkgs, PkgReleasesWf p
      | _ => True
  | _ => True

/-- Shape of a successful `finishPackage`: the filled copy must hold a
`releases` list, and the output record is that copy with the sorted
list written back. -/
theorem finishPackage_ok (ctx : Ctx) (copy : JObj) (nm : String) (recv : JVal)
    (hfin : finishPackage ctx copy = .ok (nm, recv)) :
    ∃ rels, lookupKey (fillDefaults copy) "releases" = some (JVal.list rels) ∧
      recv = JVal.obj (pythonInsert (fillDefaults copy) "releases"
        (JVal.list (ctx.version_sort rels))) := by
  simp only [finishPackage] at hfin
  cases hrel : lookupKey (fillDefaults copy) "releases" with
  | none => rw [hrel] at hfin; exact absurd hfin (by simp)
  | some v =>
      rw [hrel] at hfin
      cases v with
      | list rels =>
          simp only at hfin
          cases hname : lookupKey (pythonInsert (fillDefaults copy) "releases"
              (JVal.list (ctx.version_sort rels))) "name" with
          | none => rw [hname] at hfin; exact absurd hfin (by simp)
          | some nv =>
              rw [hname] at hfin
              cases nv with
              | str s =>
                  simp only [Except.ok.injEq, Prod.mk.injEq] at hfin
                  exact ⟨rels, rfl, hfin.2.symm⟩
              | null => exact absurd hfin (by simp)
              | bool b => exact absurd hfin (by simp)
              | num n => exact absurd hfin (by simp)
              | list l => exact absurd hfin (by simp)
              | obj o => exact absurd hfin (by simp)
      | null => exact absurd hfin (by simp)
      | bool b => exact absurd hfin (by simp)
      | num n => exact absurd hfin (by simp)
      | str s => exact absurd hfin (by simp)
      | obj o => exact absurd hfin (by simp)

/-- The releases the shim synthesizes carry exactly the canonical keys,
so never a `dependencies` key. -/
theorem platforms_to_releases_no_deps (pkg : JObj) :
    ∀ r ∈ platforms_to_releases pkg, ∀ rr, r = JVal.obj rr →
      lookupKey rr "dependencies" = none := by
  intro r hr rr hrr
  unfold platforms_to_releases at hr
  rw [List.mem_map] at hr
  obtain ⟨p, _, hp⟩ := hr
  rw [← hp] at hrr
  injection hrr with h
  rw [← h]
  rfl

/-- Per-record core of the amended C2: a record that `get_packages`
successfully processes under schema major < 4 (with a sort utility that
only returns elements of its input, and JSON-well-formed releases) has
no `dependencies` key in any release of its output record. -/
theorem processPackage_release_no_deps (ctx : Ctx) (major : Nat) (pkg : JObj)
    (nm : String) (ro : JObj) (cached : JVal)
    (hmaj4 : major < 4)
    (hvs : ∀ l x, x ∈ ctx.version_sort l → x ∈ l)
    (hwfp : PkgReleasesWf (JVal.obj pkg))
    (hok : processPackage ctx major (JVal.obj pkg) = .ok (nm, JVal.obj ro, cached)) :
    ∀ rels, lookupKey ro "releases" = some (JVal.list rels) →
    ∀ r ∈ rels, ∀ rr, r = JVal.obj rr → lookupKey rr "dependencies" = none := by
  intro rels hrels r hr rr hrr
  by_cases h2 : 2 ≤ major
  · obtain ⟨rels0, lm, hrels0, hobjs, hlm, hcached, hfin⟩ :=
      processPackage_ge2_ok ctx major pkg nm (JVal.obj ro) cached h2 hok
    have hcopy2 : lookupKey (fillDefaults (pythonInsert (pythonInsert pkg "releases"
        (JVal.list (rels0.map (renameR major)))) "last_modified" (jvalOfOpt lm)))
        "releases" = some (JVal.list (rels0.map (renameR major))) := by
      rw [lookup_fillDefaults_ne _ _ (by refine ⟨?_, ?_, ?_, ?_, ?_, ?_⟩ <;> decide)]
      rw [lookup_pythonInsert_ne _ _ _ _ (by decide)]
      exact lookup_pythonInsert_self _ _ _
    obtain ⟨rels1, hrels1, hrecv⟩ := finishPackage_ok ctx _ nm (JVal.obj ro) hfin
    rw [hcopy2] at hrels1
    simp only [Option.some.injEq, JVal.list.injEq] at hrels1
    subst hrels1
    have hro : ro = pythonInsert (fillDefaults (pythonInsert (pythonInsert pkg "releases"
        (JVal.list (rels0.map (renameR major)))) "last_modified" (jvalOfOpt lm)))
        "releases" (JVal.list (ctx.version_sort (rels0.map (renameR major)))) := by
      injection hrecv
    subst hro
    rw [lookup_pythonInsert_self] at hrels
    simp only [Option.some.injEq, JVal.list.injEq] at hrels
    subst hrels
    have hrmem : r ∈ rels0.map (renameR major) := hvs _ _ hr
    rw [List.mem_map] at hrmem
    obtain ⟨r0, hr0, hren⟩ := hrmem
    obtain ⟨ro0, hro0⟩ := hobjs r0 hr0
    subst hro0
    rw [← hren] at hrr
    simp only [renameR] at hrr
    injection hrr with h
    rw [← h]
    apply lookup_renameRelease_deps_none major ro0 _ hmaj4
    have hwf2 := hwfp
    simp only [PkgReleasesWf] at hwf2
    rw [hrels0] at hwf2
    exact hwf2 (JVal.obj ro0) hr0 ro0 rfl
  · have hmaj : major < 2 := by omega
    simp only [processPackage] at hok
    rw [if_pos hmaj] at hok
    cases hps : (lookupKey (pythonInsert pkg "releases"
        (JVal.list (platforms_to_releases pkg))) "platforms").isSome with
    | false => rw [hps] at hok; simp at hok
    | true =>
        rw [hps] at hok
        simp only [if_true] at hok
        cases hfin : finishPackage ctx (removeKey (pythonInsert pkg "releases"
            (JVal.list (platforms_to_releases pkg))) "platforms") with
        | error e => rw [hfin] at hok; simp at hok
        | ok pr =>
            obtain ⟨nm', recv'⟩ := pr
            rw [hfin] at hok
            simp only [Except.ok.injEq, Prod.mk.injEq] at hok
            obtain ⟨hnm, hrecv, hcach⟩ := hok
            have hcopy : lookupKey (fillDefaults (removeKey (pythonInsert pkg "releases"
                (JVal.list (platforms_to_releases pkg))) "platforms")) "releases"
                = some (JVal.list (platforms_to_releases pkg)) := by
              rw [lookup_fillDefaults_ne _ _ (by refine ⟨?_, ?_, ?_, ?_, ?_, ?_⟩ <;> decide)]
              rw [lookup_removeKey_ne _ _ _ (by decide)]
              exact lookup_pythonInsert_self _ _ _
            obtain ⟨rels1, hrels1, hrecv'⟩ := finishPackage_ok ctx _ nm' recv' hfin
            rw [hcopy] at hrels1
            simp only [Option.some.injEq, JVal.list.injEq] at hrels1
            subst hrels1
            rw [hrecv] at hrecv'
            have hro : ro = pythonInsert (fillDefaults (removeKey (pythonInsert pkg "releases"
                (JVal.list (platforms_to_releases pkg))) "platforms")) "releases"
                (JVal.list (ctx.version_sort (platforms_to_releases pkg))) := by
              injection hrecv'
            subst hro
            rw [lookup_pythonInsert_self] at hrels
            simp only [Option.some.injEq, JVal.list.injEq] at hrels
            subst hrels
            exact platforms_to_releases_no_deps pkg r (hvs _ _ hr) rr hrr

/-- Every entry of the mapping `get_packages` builds comes from a
successful `processPackage` run on some cached record (or from the
initial accumulator). -/
theorem packagesLoop_mem (ctx : Ctx) (major : Nat) :
    ∀ (pkgs : List JVal) (o0 : JObj) (l0 : List JVal) (out : JObj) (newPkgs : List JVal),
    packagesLoop ctx major (o0, l0) pkgs = .ok (out, newPkgs) →
    ∀ e ∈ out, e ∈ o0 ∨ ∃ p ∈ pkgs, ∃ cp, processPackage ctx major p = .ok (e.1, e.2, cp) := by
  intro pkgs
  induction pkgs with
  | nil =>
      intro o0 l0 out newPkgs h e he
      simp only [packagesLoop, Except.ok.injEq, Prod.mk.injEq] at h
      left
      rw [h.1]
      exact he
  | cons p t ih =>
      intro o0 l0 out newPkgs h e he
      simp only [packagesLoop] at h
      cases hp : processPackage ctx major p with
      | error err => rw [hp] at h; simp at h
      | ok trip =>
          obtain ⟨nm, rec, cp⟩ := trip
          rw [hp] at h
          simp only at h
          rcases ih _ _ _ _ h e he with hmem | ⟨q, hq, cq, hcq⟩
          · rcases mem_pythonInsert o0 nm rec e hmem with hmem0 | heq
            · left; exact hmem0
            · right
              refine ⟨p, List.mem_cons_self _ _, cp, ?_⟩
              rw [heq]
              exact hp
          · right
            exact ⟨q, List.mem_cons_of_mem _ hq, cq, hcq⟩

/-- Claim C2 (amended): the `dependencies`→`libraries` rename applies to
the canonical output of `get_packages`: for every document with schema
major < 4 (any major — schema-1 records get shim-synthesized releases
that never carry `dependencies`), every release record of every package
in the output mapping has no `dependencies` key and hence never both
`dependencies` and `libraries`.  `get_libraries`, by contrast, passes
release records through untouched (see the counterexample), so the claim
is restricted to `get_packages`. -/
theorem c2_amended_packages_no_dependencies (ctx : Ctx) (major : Nat) (doc : JObj)
    (u : String) (out d' : JObj)
    (hmaj4 : major < 4)
    (hvs : ∀ l x, x ∈ ctx.version_sort l → x ∈ l)
    (hwf : WfPackagesCache major doc (ctx.update_url u))
    (hok : get_packages ctx major doc u = .ok (out, d')) :
    ∀ e ∈ out, ∀ ro, e.2 = JVal.obj ro →
    ∀ rels, lookupKey ro "releases" = some (JVal.list rels) →
    ∀ r ∈ rels, ∀ rr, r = JVal.obj rr →
    lookupKey rr "dependencies" = none
    ∧ ¬((lookupKey rr "dependencies").isSome ∧ (lookupKey rr "libraries").isSome) := by
  intro e he ro hro rels hrels r hr rr hrr
  simp only [get_packages] at hok
  unfold WfPackagesCache at hwf
  cases hcd : lookupKey doc (packagesKey major) with
  | none =>
      rw [hcd] at hok
      simp only [Except.ok.injEq, Prod.mk.injEq] at hok
      rw [← hok.1] at he
      exact absurd he (List.not_mem_nil e)
  | some cv =>
      rw [hcd] at hok hwf
      cases cv with
      | obj cache =>
          simp only at hok hwf
          cases hcr : lookupKey cache (ctx.update_url u) with
          | none =>
              rw [hcr] at hok
              simp only [Except.ok.injEq, Prod.mk.injEq] at hok
              rw [← hok.1] at he
              exact absurd he (List.not_mem_nil e)
          | some pv =>
              rw [hcr] at hok hwf
              cases pv with
              | list pkgs =>
                  simp only at hok hwf
                  cases hloop : packagesLoop ctx major ([], []) pkgs with
                  | error err => rw [hloop] at hok; simp at hok
                  | ok pr =>
                      obtain ⟨out', newPkgs⟩ := pr
                      rw [hloop] at hok
                      simp only [Except.ok.injEq, Prod.mk.injEq] at hok
                      rw [← hok.1] at he
                      rcases packagesLoop_mem ctx major pkgs [] [] out' newPkgs hloop e he with
                        habs | ⟨p, hp, cp, hproc⟩
                      · exact absurd habs (List.not_mem_nil e)
                      · cases p with
                        | obj pkgo =>
                            have hnodeps : lookupKey rr "dependencies" = none := by
                              have := processPackage_release_no_deps ctx major pkgo e.1 ro cp
                                hmaj4 hvs (hwf _ hp) (by rw [← hro]; exact hproc)
                              exact this rels hrels r hr rr hrr
                            refine ⟨hnodeps, ?_⟩
                            intro hcontra
                            rw [hnodeps] at hcontra
                            simp at hcontra
                        | null => simp [processPackage] at hproc
                        | bool b => simp [processPackage] at hproc
                        | num n => simp [processPackage] at hproc
                        | str s => simp [processPackage] at hproc
                        | list l => simp [processPackage] at hproc
              | null => simp at hok
              | bool b => simp at hok
              | num n => simp at hok
              | str s => simp at hok
              | obj o => simp at hok
      | null => simp at hok
      | bool b => simp at hok
      | num n => simp at hok
      | str s => simp at hok
      | list l => simp at hok

def c2rel : JObj :=
  [("version", JVal.str "1.0.0"), ("url", JVal.str "https://dl/l.zip"),
   ("sublime_text", JVal.str "*"), ("platforms", JVal.list [JVal.str "*"]),
   ("dependencies", JVal.list [JVal.str "x"])]

def c2lib : JObj :=
  [("name", JVal.str "L"), ("load_order", JVal.str "01"),
   ("releases", JVal.list [JVal.obj c2rel])]

def c2doc : JObj :=
  [("schema_version", JVal.str "3.0.0"),
   ("repositories", JVal.list [JVal.str "https://r1"]),
   ("dependencies_cache", JVal.obj [("https://r1", JVal.list [JVal.obj c2lib])])]

/-- Claim C2 counterexample: the claim covers "the canonical output of
the query API" and cites `get_libraries`, but `get_libraries` never
renames `dependencies`: on a major-3 document whose library release
carries `dependencies: ["x"]`, the output release still carries that
key (and would keep both keys if it had both), so the rename holds only
for `get_packages`. -/
theorem c2_get_libraries_keeps_dependencies :
    get_libraries ctxId 3 c2doc "https://r1" = .ok ([("L", JVal.obj c2lib)], c2doc)
    ∧ lookupKey c2lib "releases" = some (JVal.list [JVal.obj c2rel])
    ∧ lookupKey c2rel "dependencies" = some (JVal.list [JVal.str "x"]) :=
  ⟨rfl, rfl, rfl⟩

def c2wrel : JObj :=
  [("version", JVal.str "1.0.0"), ("url", JVal.str "https://dl/p.zip"),
   ("libraries", JVal.list [JVal.str "lib-a"])]

def c2wpkg : JObj :=
  [("name", JVal.str "P"),
   ("releases", JVal.list [JVal.obj
     [("version", JVal.str "1.0.0"), ("url", JVal.str "https://dl/p.zip"),
      ("dependencies", JVal.list [JVal.str "lib-a"])]])]

def c2wdoc : JObj :=
  [("schema_version", JVal.str "3.0.0"),
   ("packages_cache", JVal.obj [("https://r1", JVal.list [JVal.obj c2wpkg])])]

def c2wmut : JObj := [("name", JVal.str "P"), ("releases", JVal.list [JVal.obj c2wrel])]

def c2wrec : JObj :=
  [("name", JVal.str "P"), ("releases", JVal.list [JVal.obj c2wrel]),
   ("last_modified", JVal.null), ("buy", JVal.null), ("issues", JVal.null),
   ("labels", JVal.list []), ("previous_names", JVal.list []),
   ("readme", JVal.null), ("donate", JVal.null)]

def c2wdoc2 : JObj :=
  [("schema_version", JVal.str "3.0.0"),
   ("packages_cache", JVal.obj [("https://r1", JVal.list [JVal.obj c2wmut])])]

/-- Witness for the amended C2: the claim's own example — a major-3
release with `dependencies: ["lib-a"]` comes out of `get_packages` with
`libraries: ["lib-a"]` and no `dependencies` key (the latter via the
amended theorem). -/
theorem c2_amended_packages_no_dependencies_witness :
    get_packages ctxId 3 c2wdoc "https://r1" = .ok ([("P", JVal.obj c2wrec)], c2wdoc2)
    ∧ lookupKey c2wrel "dependencies" = none
    ∧ lookupKey c2wrel "libraries" = some (JVal.list [JVal.str "lib-a"]) := by
  have hok : get_packages ctxId 3 c2wdoc "https://r1"
      = .ok ([("P", JVal.obj c2wrec)], c2wdoc2) := by rfl
  refine ⟨hok, ?_, rfl⟩
  have hwf : WfPackagesCache 3 c2wdoc (ctxId.update_url "https://r1") := by
    intro p hp
    simp only [List.mem_singleton] at hp
    subst hp
    intro r hr ro hro
    simp only [List.mem_singleton] at hr
    subst hr
    injection hro with h
    rw [← h]
    decide
  have h := c2_amended_packages_no_dependencies ctxId 3 c2wdoc "https://r1" _ _
    (by omega) (fun l x hx => hx) hwf hok ("P", JVal.obj c2wrec)
    (List.mem_singleton.mpr rfl) c2wrec rfl [JVal.obj c2wrel] rfl
    (JVal.obj c2wrel) (List.mem_singleton.mpr rfl) c2wrel rfl
  exact h.1

/-! ## Claim C6 -/

theorem packagesLoop_shift (ctx : Ctx) (major : Nat) :
    ∀ (pkgs : List JVal) (o : JObj) (l : List JVal),
    packagesLoop ctx major (o, l) pkgs
    = match packagesLoop ctx major (o, []) pkgs with
      | .ok (o', l') => .ok (o', l ++ l')
      | .error e => .error e := by
  intro pkgs
  induction pkgs with
  | nil => intro o l; simp [packagesLoop]
  | cons p t ih =>
      intro o l
      simp only [packagesLoop]
      cases hp : processPackage ctx major p with
      | error e => rfl
      | ok trip =>
          obtain ⟨nm, rec, cp⟩ := trip
          simp only
          rw [ih (pythonInsert o nm rec) (l ++ [cp]), ih (pythonInsert o nm rec) ([] ++ [cp])]
          cases packagesLoop ctx major (pythonInsert o nm rec, []) t with
          | error e => rfl
          | ok pr =>
              obtain ⟨o', l'⟩ := pr
              simp [List.append_assoc]

/-- Re-processing the record as it remains in the cache after a
successful `processPackage` run reproduces the same output and leaves
the cache record fixed: the rename already happened, renaming is
idempotent, and the dates it reads are untouched. -/
theorem processPackage_idem (ctx : Ctx) (major : Nat) (pkg : JObj) (nm : String)
    (rec cached : JVal) (hmaj : 2 ≤ major)
    (hwfp : PkgReleasesWf (JVal.obj pkg))
    (hok : processPackage ctx major (JVal.obj pkg) = .ok (nm, rec, cached)) :
    processPackage ctx major cached = .ok (nm, rec, cached) := by
  obtain ⟨rels, lm, hrels, hobjs, hlm, hcached, hfin⟩ :=
    processPackage_ge2_ok ctx major pkg nm rec cached hmaj hok
  subst hcached
  have hnodup : ∀ r ∈ rels, ∀ ro, r = JVal.obj ro → (keys ro).Nodup := by
    have hwf2 := hwfp
    simp only [PkgReleasesWf] at hwf2
    rw [hrels] at hwf2
    exact hwf2
  have hmapidem : (rels.map (renameR major)).map (renameR major)
      = rels.map (renameR major) := by
    rw [List.map_map]
    apply List.map_congr_left
    intro r hr
    simp only [Function.comp_apply]
    exact renameR_idem major r (hnodup r hr)
  have hlk : lookupKey (pythonInsert pkg "releases" (JVal.list (rels.map (renameR major))))
      "releases" = some (JVal.list (rels.map (renameR major))) :=
    lookup_pythonInsert_self _ _ _
  have hobjs2 : ∀ r ∈ rels.map (renameR major), ∃ ro, r = JVal.obj ro := by
    intro r hr
    rw [List.mem_map] at hr
    obtain ⟨r0, hr0, hren⟩ := hr
    obtain ⟨ro0, rfl⟩ := hobjs r0 hr0
    rw [← hren]
    exact ⟨renameRelease major ro0, rfl⟩
  have hlm2 : lmLoop none (relDates (rels.map (renameR major))) = .ok lm := by
    rw [relDates_map_renameR]
    exact hlm
  have hloop2 := releasesLoop_of major (rels.map (renameR major)) none [] lm hobjs2 hlm2
  rw [hmapidem] at hloop2
  simp only [List.nil_append] at hloop2
  simp only [processPackage]
  rw [if_neg (by omega : ¬ major < 2)]
  simp only [hlk, Option.getD_some, hloop2, Option.isSome_some, if_true,
    pythonInsert_pythonInsert_same, hfin]

theorem packagesLoop_idem (ctx : Ctx) (major : Nat) (hmaj : 2 ≤ major) :
    ∀ (pkgs : List JVal) (o : JObj) (out : JObj) (newPkgs : List JVal),
    (∀ p ∈ pkgs, PkgReleasesWf p) →
    packagesLoop ctx major (o, []) pkgs = .ok (out, newPkgs) →
    packagesLoop ctx major (o, []) newPkgs = .ok (out, newPkgs) := by
  intro pkgs
  induction pkgs with
  | nil =>
      intro o out newPkgs _ h
      simp only [packagesLoop, Except.ok.injEq, Prod.mk.injEq] at h
      rw [← h.1, ← h.2]
      rfl
  | cons p t ih =>
      intro o out newPkgs hwf h
      simp only [packagesLoop] at h
      cases hp : processPackage ctx major p with
      | error e => rw [hp] at h; simp at h
      | ok trip =>
          obtain ⟨nm, rec, cp⟩ := trip
          rw [hp] at h
          simp only at h
          rw [packagesLoop_shift ctx major t (pythonInsert o nm rec) ([] ++ [cp])] at h
          cases hub : packagesLoop ctx major (pythonInsert o nm rec, []) t with
          | error e => rw [hub] at h; simp at h
          | ok pr =>
              obtain ⟨o', l'⟩ := pr
              rw [hub] at h
              simp only [List.nil_append, Except.ok.injEq, Prod.mk.injEq] at h
              obtain ⟨h1, h2⟩ := h
              subst h1
              rw [← h2]
              simp only [List.singleton_append]
              have hpobj : ∃ pkgo, p = JVal.obj pkgo := by
                cases p with
                | obj pkgo => exact ⟨pkgo, rfl⟩
                | null => simp [processPackage] at hp
                | bool b => simp [processPackage] at hp
                | num n => simp [processPackage] at hp
                | str s => simp [processPackage] at hp
                | list l => simp [processPackage] at hp
              obtain ⟨pkgo, rfl⟩ := hpobj
              have hcp := processPackage_idem ctx major pkgo nm rec cp hmaj
                (hwf _ (List.mem_cons_self _ _)) hp
              have hrest := ih (pythonInsert o nm rec) o' l'
                (fun q hq => hwf q (List.mem_cons_of_mem _ hq)) hub
              simp only [packagesLoop, hcp]
              rw [packagesLoop_shift ctx major l' (pythonInsert o nm rec) ([] ++ [cp]), hrest]
              simp

/-- Claim C6: for schema major ≥ 2 and a JSON-well-formed document,
calling `get_packages` a second time on the document as the first call
left it (the in-place rename of the cached release dicts included)
returns the identical output and leaves the document fixed. -/
theorem c6_get_packages_idempotent (ctx : Ctx) (major : Nat) (doc : JObj) (u : String)
    (o1 : JObj) (d1 : JObj) (hmaj : 2 ≤ major)
    (hwf : WfPackagesCache major doc (ctx.update_url u))
    (h1 : get_packages ctx major doc u = .ok (o1, d1)) :
    get_packages ctx major d1 u = .ok (o1, d1) := by
  simp only [get_packages] at h1
  unfold WfPackagesCache at hwf
  cases hcd : lookupKey doc (packagesKey major) with
  | none =>
      rw [hcd] at h1
      simp only [Except.ok.injEq, Prod.mk.injEq] at h1
      rw [← h1.1, ← h1.2]
      simp only [get_packages, hcd]
  | some cv =>
      rw [hcd] at h1 hwf
      cases cv with
      | obj cache =>
          simp only at h1 hwf
          cases hcr : lookupKey cache (ctx.update_url u) with
          | none =>
              rw [hcr] at h1
              simp only [Except.ok.injEq, Prod.mk.injEq] at h1
              rw [← h1.1, ← h1.2]
              simp only [get_packages, hcd, hcr]
          | some pv =>
              rw [hcr] at h1 hwf
              cases pv with
              | list pkgs =>
                  simp only at h1 hwf
                  cases hloop : packagesLoop ctx major ([], []) pkgs with
                  | error e => rw [hloop] at h1; simp at h1
                  | ok pr =>
                      obtain ⟨out, newPkgs⟩ := pr
                      rw [hloop] at h1
                      simp only [Except.ok.injEq, Prod.mk.injEq] at h1
                      obtain ⟨ho, hd⟩ := h1
                      subst ho
                      rw [← hd]
                      have hl1 : lookupKey (pythonInsert doc (packagesKey major)
                          (JVal.obj (pythonInsert cache (ctx.update_url u)
                            (JVal.list newPkgs)))) (packagesKey major)
                          = some (JVal.obj (pythonInsert cache (ctx.update_url u)
                            (JVal.list newPkgs))) :=
                        lookup_pythonInsert_self _ _ _
                      have hl2 : lookupKey (pythonInsert cache (ctx.update_url u)
                          (JVal.list newPkgs)) (ctx.update_url u) = some (JVal.list newPkgs) :=
                        lookup_pythonInsert_self _ _ _
                      have hloop2 := packagesLoop_idem ctx major hmaj pkgs [] out newPkgs hwf hloop
                      simp only [get_packages, hl1, hl2, hloop2]
                      rw [pythonInsert_pythonInsert_same, pythonInsert_pythonInsert_same]
              | null => simp at h1
              | bool b => simp at h1
              | num n => simp at h1
              | str s => simp at h1
              | obj o => simp at h1
      | null => simp at h1
      | bool b => simp at h1
      | num n => simp at h1
      | str s => simp at h1
      | list l => simp at h1

def c6wdoc : JObj :=
  [("schema_version", JVal.str "3.0.0"),
   ("packages_cache", JVal.obj [("https://r1", JVal.list [JVal.obj
     [("name", JVal.str "P"),
      ("releases", JVal.list [JVal.obj
        [("version", JVal.str "1.0.0"), ("url", JVal.str "https://dl/p.zip"),
         ("date", JVal.str "2020-01-01"),
         ("dependencies", JVal.list [JVal.str "lib-a"])]])]])])]

/-- The result of the first `get_packages` call on `c6wdoc`. -/
def c6res : JObj × JObj :=
  match get_packages ctxId 3 c6wdoc "https://r1" with
  | .ok r => r
  | .error _ => ([], [])

/-- Witness for C6 on a document whose release actually gets renamed in
place by the first call: the second call, on the mutated document,
returns the identical result. -/
theorem c6_get_packages_idempotent_witness :
    get_packages ctxId 3 c6wdoc "https://r1" = .ok (c6res.1, c6res.2)
    ∧ get_packages ctxId 3 c6res.2 "https://r1" = .ok (c6res.1, c6res.2) := by
  have h1 : get_packages ctxId 3 c6wdoc "https://r1" = .ok (c6res.1, c6res.2) := by rfl
  have hwf : WfPackagesCache 3 c6wdoc (ctxId.update_url "https://r1") := by
    intro p hp
    simp only [List.mem_singleton] at hp
    subst hp
    intro r hr ro hro
    simp only [List.mem_singleton] at hr
    subst hr
    injection hro with h
    rw [← h]
    decide
  exact ⟨h1, c6_get_packages_idempotent ctxId 3 c6wdoc "https://r1" c6res.1 c6res.2
    (by omega) hwf h1⟩
